import Mathlib

/-!
Verification of the `geniartor` repository.

The source is shallowly embedded: Python floats that only ever hold
exact fractional note durations and scores are modelled by `ℚ`,
Python lists by `List`, Python's fallible indexing (which may raise
`IndexError`) by `Option`-returning accessors, and in-place mutation
by functional update.  Randomness is passed in explicitly as oracle
arguments.
-/

set_option maxHeartbeats 1000000

attribute [local semireducible] Rat.mul Rat.inv Rat.add Rat.sub

namespace Geniartor

/-! ## Data model (src/geniartor/piece.py) -/

/-- `ScaleElement`: a pitch from a diatonic scale. -/
structure ScaleElement where
  note : String
  position_in_semitones : ℤ
  position_in_degrees : ℤ
  degree : ℤ
  deriving DecidableEq, Repr

/-- `PieceElement`: an element of a musical piece. -/
structure PieceElement where
  note : String
  position_in_semitones : ℤ
  position_in_degrees : ℤ
  degree : ℤ
  start_time : ℚ
  duration : ℚ
  deriving DecidableEq, Repr

/-- `Sonority`: simultaneously sounding pitches. -/
structure Sonority where
  elements : List PieceElement
  indices : List ℤ
  position_type : String
  deriving DecidableEq, Repr

/-- `Piece`: a musical piece based on a diatonic scale. -/
structure Piece where
  n_measures : ℕ
  pitches : List ScaleElement
  melodic_lines : List (List PieceElement)
  sonorities : List Sonority
  deriving DecidableEq, Repr

/-! ## Python list indexing

Python indexing `l[i]` accepts negative indices (counted from the end)
and raises `IndexError` out of range; we return `none` there. -/

/-- Resolve a Python index `i` against a list of length `n`. -/
def pyIdx (n : ℕ) (i : ℤ) : Option ℕ :=
  if 0 ≤ i then
    if i < (n : ℤ) then some i.toNat else none
  else
    if 0 ≤ (n : ℤ) + i then some ((n : ℤ) + i).toNat else none

/-- Python `l[i]` (read). -/
def pyGet {α : Type} (l : List α) (i : ℤ) : Option α :=
  (pyIdx l.length i).bind (fun k => l[k]?)

/-- Python `l[i] = a` (write). -/
def pySet {α : Type} (l : List α) (i : ℤ) (a : α) : Option (List α) :=
  (pyIdx l.length i).map (fun k => l.set k a)

/-! ## Sonority alignment (src/geniartor/piece.py) -/

/-- `get_elements_by_indices`: get elements of piece by their positions in
melodic lines (`zip` truncates to the shorter argument, as in Python). -/
def get_elements_by_indices (indices : List ℤ)
    (melodic_lines : List (List PieceElement)) : Option (List PieceElement) :=
  (melodic_lines.zip indices).mapM (fun p => pyGet p.1 p.2)

/-- Lookup in an association list keyed by `ℚ` (a Python dict `.get`). -/
def lookupQ {α : Type} (l : List (ℚ × α)) (k : ℚ) : Option α :=
  (l.find? (fun p => decide (p.1 = k))).map (·.2)

/-- Position type of an interior onset: the caller-supplied custom mapping
takes precedence; otherwise the fractional part of the onset within the
measure selects `downbeat` (0), `middle` (1/2) or `other`. -/
def position_type_of (custom : List (ℚ × String)) (t : ℚ) : String :=
  match lookupQ custom t with
  | some s => s
  | none =>
      let frac := t - (⌊t⌋ : ℚ)
      if frac = 0 then "downbeat"
      else if frac = 1/2 then "middle"
      else "other"

/-- One step of the interior loop of `find_sonorities`: for each line,
`index + 1 if line_start_times[index + 1] <= start_time else index`;
the Python lookup `line_start_times[index + 1]` raises out of range. -/
def advance_indices (indices : List ℕ) (all_starts : List (List ℚ))
    (t : ℚ) : Option (List ℕ) :=
  (indices.zip all_starts).mapM (fun p =>
    match p.2[p.1 + 1]? with
    | some s => some (if s ≤ t then p.1 + 1 else p.1)
    | none => none)

/-- The interior loop of `find_sonorities` over `unique_start_times[1:-1]`. -/
def interior_sonorities (melodic_lines : List (List PieceElement))
    (all_starts : List (List ℚ)) (custom : List (ℚ × String)) :
    List ℕ → List ℚ → Option (List Sonority)
  | _, [] => some []
  | indices, t :: ts => do
      let pt := position_type_of custom t
      let indices' ← advance_indices indices all_starts t
      let elems ← get_elements_by_indices (indices'.map Int.ofNat) melodic_lines
      let rest ← interior_sonorities melodic_lines all_starts custom indices' ts
      some (Sonority.mk elems (indices'.map Int.ofNat) pt :: rest)

/-- `find_sonorities`: find all simultaneously sounding pitches.
`sorted(list(set(flat_start_times)))` is embedded as deduplication
followed by insertion sort. -/
def find_sonorities (melodic_lines : List (List PieceElement))
    (custom : List (ℚ × String)) : Option (List Sonority) := do
  let all_starts := melodic_lines.map (fun line => line.map (·.start_time))
  let unique := (all_starts.flatten.dedup).insertionSort (· ≤ ·)
  let indices0 : List ℕ := melodic_lines.map (fun _ => 0)
  let first_elems ← get_elements_by_indices (indices0.map Int.ofNat) melodic_lines
  let interior ←
    interior_sonorities melodic_lines all_starts custom indices0
      ((unique.drop 1).dropLast)
  let last_indices : List ℤ := melodic_lines.map (fun _ => (-1 : ℤ))
  let last_elems ← get_elements_by_indices last_indices melodic_lines
  some (Sonority.mk first_elems (indices0.map Int.ofNat) "beginning"
    :: (interior ++ [Sonority.mk last_elems last_indices "ending"]))

/-! ## Concrete pieces for the scenario claims -/

/-- First melodic line of the spec's 2-measure, 2-voice scenario. -/
def scenarioLine1 : List PieceElement :=
  [ PieceElement.mk "C4" 39 23 1 0 (1/2),
    PieceElement.mk "D4" 41 24 2 (1/2) (1/2),
    PieceElement.mk "E4" 43 25 3 1 (1/2),
    PieceElement.mk "F4" 44 26 4 (3/2) (1/2) ]

/-- Second melodic line of the spec's 2-measure, 2-voice scenario. -/
def scenarioLine2 : List PieceElement :=
  [ PieceElement.mk "G4" 46 27 5 0 1,
    PieceElement.mk "C5" 51 30 1 1 1 ]

/-- The sonorities `find_sonorities` returns on the scenario piece. -/
def scenarioSonorities : List Sonority :=
  [ Sonority.mk
      [ PieceElement.mk "C4" 39 23 1 0 (1/2),
        PieceElement.mk "G4" 46 27 5 0 1 ] [0, 0] "beginning",
    Sonority.mk
      [ PieceElement.mk "D4" 41 24 2 (1/2) (1/2),
        PieceElement.mk "G4" 46 27 5 0 1 ] [1, 0] "middle",
    Sonority.mk
      [ PieceElement.mk "E4" 43 25 3 1 (1/2),
        PieceElement.mk "C5" 51 30 1 1 1 ] [2, 1] "downbeat",
    Sonority.mk
      [ PieceElement.mk "F4" 44 26 4 (3/2) (1/2),
        PieceElement.mk "C5" 51 30 1 1 1 ] [-1, -1] "ending" ]

/-- A single melodic line with a single note: one distinct onset time. -/
def singleOnsetLines : List (List PieceElement) :=
  [[PieceElement.mk "C4" 39 23 1 0 1]]

/-- A family of two one-note lines sharing the single onset time 0. -/
def sharedOnsetLines : List (List PieceElement) :=
  [ [PieceElement.mk "C4" 39 23 1 0 2],
    [PieceElement.mk "G4" 46 27 5 0 2] ]

/-- The number of distinct note-start times across all lines. -/
def numDistinctOnsets (lines : List (List PieceElement)) : ℕ :=
  ((lines.map (fun l => l.map (·.start_time))).flatten).dedup.length

/-- Total duration of a melodic line (sum of its note durations). -/
def totalDuration (line : List PieceElement) : ℚ :=
  (line.map (·.duration)).sum

/-- A melodic line as the generator builds it: note start times are the
running sums of the (positive) durations, starting from time 0. -/
def consistentFrom (t : ℚ) : List PieceElement → Bool
  | [] => true
  | e :: rest =>
      decide (e.start_time = t) && decide (0 < e.duration)
        && consistentFrom (t + e.duration) rest

/-- A family of melodic lines forming a valid piece: the family is non-empty,
every line is non-empty, every line's start times are the running sums of its
positive durations from 0, and all lines have the same total duration. -/
def ValidLines (lines : List (List PieceElement)) (total : ℚ) : Prop :=
  lines ≠ [] ∧ ∀ l ∈ lines,
    l ≠ [] ∧ consistentFrom 0 l = true ∧ totalDuration l = total

/-- A pair of valid melodic lines (each lasting two measures) on which
`find_sonorities` raises `IndexError`: the first line's last note starts at
time 1, but the onset 3/2 contributed by the second line is still interior,
so the interior loop reads `line_start_times[2]` in a line of length 2. -/
def crashLinesA : List (List PieceElement) :=
  [ [ PieceElement.mk "C4" 39 23 1 0 1,
      PieceElement.mk "D4" 41 24 2 1 (1/2),
      PieceElement.mk "E4" 43 25 3 (3/2) (1/2) ],
    [ PieceElement.mk "G4" 46 27 5 0 (1/2),
      PieceElement.mk "A4" 48 28 6 (1/2) (3/2) ] ]

/-- The same failure with the two lines swapped. -/
def crashLinesB : List (List PieceElement) :=
  [ [ PieceElement.mk "G4" 46 27 5 0 (1/2),
      PieceElement.mk "A4" 48 28 6 (1/2) (3/2) ],
    [ PieceElement.mk "C4" 39 23 1 0 1,
      PieceElement.mk "D4" 41 24 2 1 (1/2),
      PieceElement.mk "E4" 43 25 3 (3/2) (1/2) ] ]

/-! ## Evaluation (src/geniartor/evaluation.py)

Python dicts appear in two profiles: `.get(key, default)` and `.items()`
iteration are embedded as association lists, while mandatory lookups
`d[key]` in the stability tables (where the claims assume every needed key
to be present, i.e. no `KeyError`) are embedded as total functions.
Accumulation loops `acc += f(x)` are embedded as sums/folds.  Divisions
are `ℚ` division (total, with `x / 0 = 0` where Python would raise
`ZeroDivisionError`). -/

/-- Lookup with default in an association list keyed by `ℤ`
(a Python dict `.get(key, default)`). -/
def lookupZD (l : List (ℤ × ℚ)) (k : ℤ) (default : ℚ) : ℚ :=
  match (l.find? (fun p => decide (p.1 = k))).map (·.2) with
  | some v => v
  | none => default

/-- Minimum of a list of integers (Python `min`; junk value 0 on the empty
list, where Python raises `ValueError` — unreachable for a positive window
size). -/
def listMinZ (l : List ℤ) : ℤ :=
  match l with
  | [] => 0
  | x :: xs => xs.foldl min x

/-- Maximum of a list of integers (Python `max`; junk value 0 on `[]`). -/
def listMaxZ (l : List ℤ) : ℤ :=
  match l with
  | [] => 0
  | x :: xs => xs.foldl max x

/-- Maximum of a list of rationals (Python `max`; junk value 0 on `[]`). -/
def listMaxQ (l : List ℚ) : ℚ :=
  match l with
  | [] => 0
  | x :: xs => xs.foldl max x

/-- `evaluate_absence_of_large_intervals`: fraction of sonorities holding a
pair of adjacent voices more than `max_n_semitones` apart, times -1. -/
def evaluate_absence_of_large_intervals (piece : Piece)
    (max_n_semitones : ℤ) : ℚ :=
  let score : ℚ := piece.sonorities.foldl (fun score sonority =>
    if (sonority.elements.zip sonority.elements.tail).any (fun p =>
        decide (max_n_semitones <
          |p.2.position_in_semitones - p.1.position_in_semitones|))
    then score - 1 else score) 0
  score / (piece.sonorities.length : ℚ)

/-- `compute_rolling_extrema`: rolling minima and maxima over windows
`values[k - window_size : k]` for `k` in `range(window_size, len + 1)`. -/
def compute_rolling_extrema (values : List ℤ) (window_size : ℕ) :
    List (ℤ × ℤ) :=
  (List.range' window_size (values.length + 1 - window_size)).map (fun k =>
    let window := (values.take k).drop (k - window_size)
    (listMinZ window, listMaxZ window))

/-- `evaluate_absence_of_narrow_ranges`: weighted count of narrow rolling
ranges per melodic line, times -1, averaged over lines. -/
def evaluate_absence_of_narrow_ranges (piece : Piece)
    (penalties : List (ℤ × ℚ)) (range_size : ℕ) : ℚ :=
  let score : ℚ := piece.melodic_lines.foldl (fun score melodic_line =>
    let pitches := melodic_line.map (·.position_in_degrees)
    let borders := compute_rolling_extrema pitches range_size
    borders.foldl (fun score b =>
      let width := b.2 - b.1
      let curr_penalties := ((penalties.filter
        (fun kv => decide (width ≤ kv.1))).map (·.2))
      let penalty := if curr_penalties.isEmpty then 0
        else listMaxQ curr_penalties
      score - penalty) score) 0
  score / (piece.melodic_lines.length : ℚ)

/-- Interval information collected by
`evaluate_absence_of_parallel_intervals`: lower voice's index, upper
voice's index, and the interval size in scale degrees. -/
structure IntervalInfo where
  lower_index : ℤ
  upper_index : ℤ
  n_degrees : ℤ
  deriving DecidableEq, Repr

/-- `evaluate_absence_of_parallel_intervals`: penalize pairs of successive
sonorities keeping the same interval in degrees between two voices while
both voices move; normalized by the number of sonority pairs. -/
def evaluate_absence_of_parallel_intervals (piece : Piece)
    (n_degrees_to_penalty : List (ℤ × ℚ)) : ℚ :=
  let intervals := piece.sonorities.map (fun sonority =>
    ((sonority.indices.zip sonority.indices.tail).zip
        (sonority.elements.zip sonority.elements.tail)).map (fun p =>
      IntervalInfo.mk p.1.1 p.1.2
        (p.2.2.position_in_degrees - p.2.1.position_in_degrees)))
  let score : ℚ := (intervals.zip intervals.tail).foldl (fun score p =>
    (p.1.zip p.2).foldl (fun score q =>
      if q.1.n_degrees = q.2.n_degrees ∧ q.1.lower_index ≠ q.2.lower_index
          ∧ q.1.upper_index ≠ q.2.upper_index
      then score - lookupZD n_degrees_to_penalty q.1.n_degrees 0
      else score) score) 0
  score / ((piece.sonorities.length : ℚ) - 1)

/-- `evaluate_absence_of_voice_crossing`: fraction of sonorities whose
voices, in declaration order, contain an adjacent pair with
`first.position_in_semitones >= second.position_in_semitones`, times -1. -/
def evaluate_absence_of_voice_crossing (piece : Piece) : ℚ :=
  let score : ℚ := piece.sonorities.foldl (fun score sonority =>
    if (sonority.elements.zip sonority.elements.tail).any (fun p =>
        decide (p.2.position_in_semitones ≤ p.1.position_in_semitones))
    then score - 1 else score) 0
  score / (piece.sonorities.length : ℚ)

/-- `evaluate_conjunct_motion`: per line, penalties for melodic intervals
(default penalty 1 for unlisted sizes), reduced by a deduction, clipped at
0, normalized per line and averaged over lines. -/
def evaluate_conjunct_motion (piece : Piece)
    (penalty_deduction_per_line : ℚ)
    (n_semitones_to_penalty : List (ℤ × ℚ)) : ℚ :=
  let score : ℚ := piece.melodic_lines.foldl (fun score line =>
    let curr_score : ℚ := (line.zip line.tail).foldl (fun curr p =>
      curr - lookupZD n_semitones_to_penalty
        |p.1.position_in_semitones - p.2.position_in_semitones| 1) 0
    let curr_score := min (curr_score + penalty_deduction_per_line) 0
    let curr_score := curr_score / ((line.length : ℚ) - 1)
    score + curr_score) 0
  score / (piece.melodic_lines.length : ℚ)

/-- `evaluate_dominance_of_tertian_harmony`: fraction of sonorities whose
active degrees do not form a contiguous arc of the circle of thirds
`[1, 3, 5, 7, 2, 4, 6]`, times -1. -/
def evaluate_dominance_of_tertian_harmony (piece : Piece) : ℚ :=
  let circle_of_thirds : List ℤ := [1, 3, 5, 7, 2, 4, 6]
  let score : ℚ := piece.sonorities.foldl (fun score sonority =>
    let degrees := sonority.elements.map (·.degree)
    let active_circle := circle_of_thirds.map
      (fun x => if x ∈ degrees then (1 : ℕ) else 0)
    let shifted_active_circle :=
      active_circle.getLastD 0 :: active_circle.dropLast
    let n_changes := ((active_circle.zip shifted_active_circle).filter
      (fun p => decide (p.1 ≠ p.2))).length
    if 2 < n_changes then score - 1 else score) 0
  score / (piece.sonorities.length : ℚ)

/-- `itertools.combinations(l, 2)`: all ordered-position pairs. -/
def combinations2 {α : Type} : List α → List (α × α)
  | [] => []
  | x :: xs => xs.map (fun y => (x, y)) ++ combinations2 xs

/-- `compute_harmonic_stability_of_sonority`: average of the stability of
each pair of sounding pitches, looked up by interval size modulo 12. -/
def compute_harmonic_stability_of_sonority
    (sonority_elements : List PieceElement)
    (n_semitones_to_stability : ℕ → ℚ) : ℚ :=
  let stability := ((combinations2 sonority_elements).map (fun p =>
    n_semitones_to_stability
      ((p.1.position_in_semitones - p.2.position_in_semitones).natAbs
        % 12))).sum
  let n_pairs : ℚ := (sonority_elements.length : ℚ)
    * ((sonority_elements.length : ℚ) - 1) / 2
  stability / n_pairs

/-- `evaluate_harmonic_stability`: per sonority, penalize only shortfall
below the position-type-indexed minimum and excess above the maximum,
each clipped to ≤ 0; normalized by sonority count. -/
def evaluate_harmonic_stability (piece : Piece)
    (min_stabilities max_stabilities : String → ℚ)
    (n_semitones_to_stability : ℕ → ℚ) : ℚ :=
  let score : ℚ := (piece.sonorities.map (fun sonority =>
    let stability_of_current_sonority :=
      compute_harmonic_stability_of_sonority sonority.elements
        n_semitones_to_stability
    min (stability_of_current_sonority
        - min_stabilities sonority.position_type) 0
      + min (max_stabilities sonority.position_type
        - stability_of_current_sonority) 0)).sum
  score / (piece.sonorities.length : ℚ)

/-- `compute_tonal_stability_of_sonority`: average of the per-pitch
scale-degree stabilities. -/
def compute_tonal_stability_of_sonority
    (sonority_elements : List PieceElement)
    (degree_to_stability : ℤ → ℚ) : ℚ :=
  let stability := (sonority_elements.map
    (fun x => degree_to_stability x.degree)).sum
  stability / (sonority_elements.length : ℚ)

/-- `evaluate_tonal_stability`: per sonority, penalize only deviations of
tonal stability outside the position-type-indexed band, each clipped to
≤ 0; normalized by sonority count. -/
def evaluate_tonal_stability (piece : Piece)
    (min_stabilities max_stabilities : String → ℚ)
    (degree_to_stability : ℤ → ℚ) : ℚ :=
  let score : ℚ := (piece.sonorities.map (fun sonority =>
    let stability_of_current_sonority :=
      compute_tonal_stability_of_sonority sonority.elements
        degree_to_stability
    min (stability_of_current_sonority
        - min_stabilities sonority.position_type) 0
      + min (max_stabilities sonority.position_type
        - stability_of_current_sonority) 0)).sum
  score / (piece.sonorities.length : ℚ)

/-- The names in the registry returned by `get_scoring_functions_registry`. -/
inductive ScoringFnName where
  | absence_of_large_intervals
  | absence_of_narrow_ranges
  | absence_of_parallel_intervals
  | absence_of_voice_crossing
  | conjunct_motion
  | dominance_of_tertian_harmony
  | harmonic_stability
  | tonal_stability
  deriving DecidableEq, Repr

/-- The per-function parameter bundles drawn from `scoring_fn_params`
(one record holding every function's parameters). -/
structure ScoringFnParams where
  max_n_semitones : ℤ
  penalties : List (ℤ × ℚ)
  range_size : ℕ
  n_degrees_to_penalty : List (ℤ × ℚ)
  penalty_deduction_per_line : ℚ
  n_semitones_to_penalty : List (ℤ × ℚ)
  harmonic_min_stabilities : String → ℚ
  harmonic_max_stabilities : String → ℚ
  n_semitones_to_stability : ℕ → ℚ
  tonal_min_stabilities : String → ℚ
  tonal_max_stabilities : String → ℚ
  degree_to_stability : ℤ → ℚ

/-- The registry lookup `registry[fn_name]` followed by the call
`fn(piece, **fn_params)`. -/
def apply_scoring_function (name : ScoringFnName) (piece : Piece)
    (p : ScoringFnParams) : ℚ :=
  match name with
  | .absence_of_large_intervals =>
      evaluate_absence_of_large_intervals piece p.max_n_semitones
  | .absence_of_narrow_ranges =>
      evaluate_absence_of_narrow_ranges piece p.penalties p.range_size
  | .absence_of_parallel_intervals =>
      evaluate_absence_of_parallel_intervals piece p.n_degrees_to_penalty
  | .absence_of_voice_crossing =>
      evaluate_absence_of_voice_crossing piece
  | .conjunct_motion =>
      evaluate_conjunct_motion piece p.penalty_deduction_per_line
        p.n_semitones_to_penalty
  | .dominance_of_tertian_harmony =>
      evaluate_dominance_of_tertian_harmony piece
  | .harmonic_stability =>
      evaluate_harmonic_stability piece p.harmonic_min_stabilities
        p.harmonic_max_stabilities p.n_semitones_to_stability
  | .tonal_stability =>
      evaluate_tonal_stability piece p.tonal_min_stabilities
        p.tonal_max_stabilities p.degree_to_stability

/-- `evaluate`: weighted sum of the scores of the configured scoring
functions.  The second component records the per-function diagnostic
lines printed in verbose mode (the `print` side effect). -/
def evaluate (piece : Piece) (scoring_coefs : List (ScoringFnName × ℚ))
    (p : ScoringFnParams) (verbose : Bool) :
    ℚ × List (ScoringFnName × ℚ) :=
  scoring_coefs.foldl (fun acc nw =>
    let curr_score := nw.2 * apply_scoring_function nw.1 piece p
    (acc.1 + curr_score,
      if verbose then acc.2 ++ [(nw.1, curr_score)] else acc.2)) (0, [])

/-- The condition under which `evaluate_absence_of_voice_crossing`
subtracts 1 for a sonority: some adjacent pair of voices, in declaration
order, is not strictly increasing in pitch height. -/
def voices_not_strictly_increasing (sonority : Sonority) : Bool :=
  (sonority.elements.zip sonority.elements.tail).any (fun p =>
    decide (p.2.position_in_semitones ≤ p.1.position_in_semitones))

/-- The voice-crossing score as the spec words it (for comparison with the
source's `evaluate_absence_of_voice_crossing`): subtract 1 for exactly the
sonorities whose voices are *not non-decreasing* in pitch height, i.e.
contain an adjacent pair that strictly decreases; normalize by the
sonority count. -/
def voice_crossing_score_per_spec (piece : Piece) : ℚ :=
  let score : ℚ := piece.sonorities.foldl (fun score sonority =>
    if (sonority.elements.zip sonority.elements.tail).any (fun p =>
        decide (p.2.position_in_semitones < p.1.position_in_semitones))
    then score - 1 else score) 0
  score / (piece.sonorities.length : ℚ)

/-- A piece whose second (ending) sonority holds a unison between its two
voices, while its first sonority is strictly increasing. -/
def unisonPiece : Piece :=
  Piece.mk 2
    [ ScaleElement.mk "C4" 39 23 1, ScaleElement.mk "G4" 46 27 5 ]
    [ [ PieceElement.mk "C4" 39 23 1 0 1,
        PieceElement.mk "G4" 46 27 5 1 1 ],
      [ PieceElement.mk "G4" 46 27 5 0 2 ] ]
    [ Sonority.mk
        [ PieceElement.mk "C4" 39 23 1 0 1,
          PieceElement.mk "G4" 46 27 5 0 2 ] [0, 0] "beginning",
      Sonority.mk
        [ PieceElement.mk "G4" 46 27 5 1 1,
          PieceElement.mk "G4" 46 27 5 0 2 ] [-1, -1] "ending" ]

/-! ## Optimization (src/geniartor/optimization.py)

Pieces are immutable values here, so `deepcopy` is the identity and the
in-place mutations become functional updates.  Randomness is an explicit
oracle: the `random.random()` draws of candidate subsampling, the
`random.choices` keep/replace decisions of perturbation, and the
`random.sample` pitch draws are all inputs. -/

/-- The replacement `PieceElement` built by `set_new_values_for_sonority`:
the new scale element's pitch fields with the old element's start time and
duration. -/
def replacement_element (v : ScaleElement) (old : PieceElement) :
    PieceElement :=
  PieceElement.mk v.note v.position_in_semitones v.position_in_degrees
    v.degree old.start_time old.duration

/-- The update loop of `set_new_values_for_sonority`:
`for melodic_line, index, new_scale_element in zip(...)`; `zip` stops at
the shortest argument, leaving the remaining lines untouched. -/
def update_lines :
    List (List PieceElement) → List ℤ → List ScaleElement →
    Option (List (List PieceElement))
  | lines, [], _ => some lines
  | lines, _ :: _, [] => some lines
  | [], _ :: _, _ :: _ => some []
  | line :: lines, idx :: idxs, v :: vs => do
      let old ← pyGet line idx
      let line' ← pySet line idx (replacement_element v old)
      let rest ← update_lines lines idxs vs
      some (line' :: rest)

/-- The rebuild loop of `set_new_values_for_sonority`: every sonority's
elements are recomputed from the updated melodic lines, keeping its
indices and position type. -/
def rebuild_sonorities (sonorities : List Sonority)
    (melodic_lines : List (List PieceElement)) : Option (List Sonority) :=
  sonorities.mapM (fun old => do
    let elems ← get_elements_by_indices old.indices melodic_lines
    some (Sonority.mk elems old.indices old.position_type))

/-- `set_new_values_for_sonority`: update the elements forming a sonority,
then recompute all sonorities from the updated melodic lines. -/
def set_new_values_for_sonority (piece : Piece) (sonority_position : ℤ)
    (new_values : List ScaleElement) : Option Piece := do
  let sonority ← pyGet piece.sonorities sonority_position
  let melodic_lines ← update_lines piece.melodic_lines sonority.indices
    new_values
  let sonorities ← rebuild_sonorities piece.sonorities melodic_lines
  some (Piece.mk piece.n_measures piece.pitches melodic_lines sonorities)

/-- `itertools.combinations(l, n)`: all length-`n` sublists, in the
lexicographic order of positions. -/
def combinations {α : Type} : ℕ → List α → List (List α)
  | 0, _ => [[]]
  | _ + 1, [] => []
  | n + 1, x :: xs =>
      (combinations n xs).map (fun c => x :: c) ++ combinations (n + 1) xs

/-- A `{'piece': ..., 'score': ...}` result dict. -/
structure SearchResult where
  piece : Piece
  score : ℚ
  deriving DecidableEq, Repr

/-- The loop of `update_one_sonority` over the combination alternatives.
`randoms k` is the `random.random()` draw of the `k`-th alternative: the
alternative is skipped when the draw exceeds `fraction_to_try`.  The
returned list is a ghost trace of the scores handed back by `evaluate`,
used to state the best-encountered property. -/
def try_alternatives (sonority_position : ℤ) (fraction_to_try : ℚ)
    (scoring_coefs : List (ScoringFnName × ℚ)) (p : ScoringFnParams)
    (randoms : ℕ → ℚ) :
    List (List ScaleElement) → ℕ → Piece → SearchResult →
    Option (SearchResult × List ℚ)
  | [], _, _, result => some (result, [])
  | alternative :: alts, k, piece, result =>
      if fraction_to_try < randoms k then
        try_alternatives sonority_position fraction_to_try scoring_coefs p
          randoms alts (k + 1) piece result
      else do
        let piece' ← set_new_values_for_sonority piece sonority_position
          alternative
        let score := (evaluate piece' scoring_coefs p false).1
        let result' := if result.score < score
          then SearchResult.mk piece' score else result
        let (final, trace) ← try_alternatives sonority_position
          fraction_to_try scoring_coefs p randoms alts (k + 1) piece' result'
        some (final, score :: trace)

/-- `update_one_sonority`: replace one sonority with the locally best
alternative among the sampled size-`n_lines` pitch combinations. -/
def update_one_sonority (result : SearchResult) (sonority_position : ℤ)
    (fraction_to_try : ℚ) (scoring_coefs : List (ScoringFnName × ℚ))
    (p : ScoringFnParams) (randoms : ℕ → ℚ) :
    Option (SearchResult × List ℚ) :=
  let piece := result.piece
  let n_lines := piece.melodic_lines.length
  let alternatives := combinations n_lines piece.pitches
  try_alternatives sonority_position fraction_to_try scoring_coefs p
    randoms alternatives 0 piece result

/-- The loop of `perturb` over sonority positions: `keep pos` is the
`random.choices([False, True], weights)[0]` draw and `samples pos` the
`random.sample(piece.pitches, n_lines)` draw for position `pos`. -/
def perturb_positions (keep : ℕ → Bool)
    (samples : ℕ → List ScaleElement) :
    List ℕ → Piece → Option Piece
  | [], piece => some piece
  | pos :: rest, piece =>
      if keep pos then perturb_positions keep samples rest piece
      else do
        let new_scale_elements := (samples pos).insertionSort
          (fun a b => a.position_in_semitones ≤ b.position_in_semitones)
        let piece' ← set_new_values_for_sonority piece (pos : ℤ)
          new_scale_elements
        perturb_positions keep samples rest piece'

/-- `perturb`: replace some sonorities with random (sorted) sonorities. -/
def perturb (piece : Piece) (keep : ℕ → Bool)
    (samples : ℕ → List ScaleElement) : Option Piece :=
  perturb_positions keep samples (List.range piece.sonorities.length) piece

/-- The randomness consumed by one pass of the search: the subsampling
draws per position and alternative, and the perturbation draws. -/
structure PassOracle where
  update_randoms : ℕ → ℕ → ℚ
  keep : ℕ → Bool
  samples : ℕ → List ScaleElement

/-- The state carried across passes: `best_result`, `previous_result` and
`result` of the source, plus two ghost fields used only to state
properties: `trace` collects every score `evaluate` produced for a fresh
candidate piece (initial piece, tried alternatives, perturbed pieces), and
`finalPerturbed` records whether the most recent pass ended with a
perturbation. -/
structure VnsState where
  best : SearchResult
  previous : SearchResult
  current : SearchResult
  trace : List ℚ
  finalPerturbed : Bool
  deriving DecidableEq

/-- The inner position loop of one pass:
`for position in range(len(piece.sonorities))`. -/
def update_positions (fraction_to_try : ℚ)
    (scoring_coefs : List (ScoringFnName × ℚ)) (p : ScoringFnParams)
    (randoms : ℕ → ℕ → ℚ) :
    List ℕ → SearchResult → Option (SearchResult × List ℚ)
  | [], result => some (result, [])
  | pos :: rest, result => do
      let (result', trace') ← update_one_sonority result (pos : ℤ)
        fraction_to_try scoring_coefs p (randoms pos)
      let (final, trace'') ← update_positions fraction_to_try scoring_coefs
        p randoms rest result'
      some (final, trace' ++ trace'')

/-- One pass of the search: optimize every sonority position, promote the
current result to best on strict improvement, otherwise perturb when the
pass brought no improvement over the previous pass.  The evaluation at
`print`-diagnostic verbosity of the end-of-pass piece re-scores a piece
whose score is already held in `result` and is discarded. -/
def vns_pass (n_sonorities : ℕ) (fraction_to_try : ℚ)
    (scoring_coefs : List (ScoringFnName × ℚ)) (p : ScoringFnParams)
    (oracle : PassOracle) (st : VnsState) : Option VnsState :=
  (update_positions fraction_to_try scoring_coefs p oracle.update_randoms
    (List.range n_sonorities) st.current).bind (fun q =>
      if st.best.score < q.1.score then
        some (VnsState.mk q.1 q.1 q.1 (st.trace ++ q.2) false)
      else if q.1.score ≤ st.previous.score then
        (perturb q.1.piece oracle.keep oracle.samples).map (fun new_piece =>
          VnsState.mk st.best
            (SearchResult.mk new_piece
              (evaluate new_piece scoring_coefs p true).1)
            (SearchResult.mk new_piece
              (evaluate new_piece scoring_coefs p true).1)
            (st.trace ++ q.2
              ++ [(evaluate new_piece scoring_coefs p true).1]) true)
      else
        some (VnsState.mk st.best q.1 q.1 (st.trace ++ q.2) false))

/-- `run_variable_neighborhood_search`: the number of passes is the length
of the oracle list; the returned piece is the final best piece (the final
state is also returned so that properties of the run can be stated). -/
def run_variable_neighborhood_search (piece : Piece)
    (scoring_coefs : List (ScoringFnName × ℚ)) (p : ScoringFnParams)
    (fraction_to_try : ℚ) (pass_oracles : List PassOracle) :
    Option (Piece × VnsState) := do
  let initial_score := (evaluate piece scoring_coefs p false).1
  let initial := SearchResult.mk piece initial_score
  let st ← pass_oracles.foldlM
    (fun st oracle => vns_pass piece.sonorities.length fraction_to_try
      scoring_coefs p oracle st)
    (VnsState.mk initial initial initial [initial_score] false)
  some (st.best.piece, st)

/-- Concrete scoring-function parameters for witnesses. -/
def defaultScoringParams : ScoringFnParams :=
  ScoringFnParams.mk 16 [] 9 [] 0 []
    (fun _ => 0) (fun _ => 1) (fun _ => 1/2)
    (fun _ => 0) (fun _ => 1) (fun _ => 1/2)

/-- A piece with two melodic lines but a single available pitch: the
neighborhood of every sonority position is empty, since no size-2
combination can be drawn from one pitch. -/
def degeneratePiece : Piece :=
  Piece.mk 1
    [ ScaleElement.mk "C4" 39 23 1 ]
    [ [ PieceElement.mk "C4" 39 23 1 0 1 ],
      [ PieceElement.mk "G4" 46 27 5 0 1 ] ]
    [ Sonority.mk
        [ PieceElement.mk "C4" 39 23 1 0 1,
          PieceElement.mk "G4" 46 27 5 0 1 ] [0, 0] "beginning",
      Sonority.mk
        [ PieceElement.mk "C4" 39 23 1 0 1,
          PieceElement.mk "G4" 46 27 5 0 1 ] [-1, -1] "ending" ]

/-- The piece produced from `unisonPiece` by replacing sonority 0 with the
scale elements E4 and B4: only the first element of each melodic line
changes (keeping its start time and duration) and the sonorities are
rebuilt from the updated lines. -/
def c8UpdatedPiece : Piece :=
  Piece.mk 2
    [ ScaleElement.mk "C4" 39 23 1, ScaleElement.mk "G4" 46 27 5 ]
    [ [ PieceElement.mk "E4" 43 25 3 0 1,
        PieceElement.mk "G4" 46 27 5 1 1 ],
      [ PieceElement.mk "B4" 50 29 7 0 2 ] ]
    [ Sonority.mk
        [ PieceElement.mk "E4" 43 25 3 0 1,
          PieceElement.mk "B4" 50 29 7 0 2 ] [0, 0] "beginning",
      Sonority.mk
        [ PieceElement.mk "G4" 46 27 5 1 1,
          PieceElement.mk "B4" 50 29 7 0 2 ] [-1, -1] "ending" ]

/-- `LastLE sl t i`: position `i` is the index of the last entry of the
start-time list `sl` that is ≤ `t` (the entry at `i` is ≤ `t` and the next
entry, when present, exceeds `t`). -/
def LastLE (sl : List ℚ) (t : ℚ) (i : ℕ) : Prop :=
  (∃ a, sl[i]? = some a ∧ a ≤ t) ∧ ∀ b, sl[i + 1]? = some b → t < b

/-- `AdjacentChain P u ts`: the times `u :: ts` are strictly increasing and
no value satisfying `P` lies strictly between two consecutive ones. -/
def AdjacentChain (P : ℚ → Prop) : ℚ → List ℚ → Prop
  | _, [] => True
  | u, t :: ts => u < t ∧ (∀ x, P x → ¬(u < x ∧ x < t)) ∧ AdjacentChain P t ts

/-- The per-line index recorded in the `k`-th sonority (with junk defaults
out of range), used to state index monotonicity. -/
def sonIdx (sons : List Sonority) (k j : ℕ) : ℤ :=
  ((sons.getD k (Sonority.mk [] [] "")).indices.getD j 0)

/-- The invariant maintained across passes of the search: every score
`evaluate` produced is at most the larger of the best and current scores;
when the most recent pass did not end with a perturbation, the best score
bounds every evaluated score; and both tracked scores really are the
evaluations of their pieces. -/
def VnsInvariant (scoring_coefs : List (ScoringFnName × ℚ))
    (p : ScoringFnParams) (st : VnsState) : Prop :=
  (∀ s ∈ st.trace, s ≤ max st.best.score st.current.score) ∧
  (st.finalPerturbed = false → ∀ s ∈ st.trace, s ≤ st.best.score) ∧
  st.best.score = (evaluate st.best.piece scoring_coefs p false).1 ∧
  st.current.score = (evaluate st.current.piece scoring_coefs p false).1

/-- A piece whose two voices are crossed in every sonority. -/
def crossedPiece : Piece :=
  Piece.mk 1
    [ ScaleElement.mk "C4" 39 23 1, ScaleElement.mk "G4" 46 27 5 ]
    [ [ PieceElement.mk "G4" 46 27 5 0 1 ],
      [ PieceElement.mk "C4" 39 23 1 0 1 ] ]
    [ Sonority.mk
        [ PieceElement.mk "G4" 46 27 5 0 1,
          PieceElement.mk "C4" 39 23 1 0 1 ] [0, 0] "beginning",
      Sonority.mk
        [ PieceElement.mk "G4" 46 27 5 0 1,
          PieceElement.mk "C4" 39 23 1 0 1 ] [-1, -1] "ending" ]

/-- Scoring coefficients used in the concrete optimizer runs: voice
crossing only, weight 1. -/
def c4Coefs : List (ScoringFnName × ℚ) :=
  [(ScoringFnName.absence_of_voice_crossing, 1)]

/-- A pass oracle that skips every alternative (every subsampling draw
exceeds the fraction) and perturbs every sonority position, sampling the
two available pitches. -/
def c4Oracle : PassOracle :=
  PassOracle.mk (fun _ _ => 1) (fun _ => false)
    (fun _ => [ ScaleElement.mk "G4" 46 27 5, ScaleElement.mk "C4" 39 23 1 ])

/-- The piece obtained from `crossedPiece` by the perturbation drawn by
`c4Oracle`: the voices are un-crossed, raising the score from -1 to 0. -/
def c4PerturbedPiece : Piece :=
  Piece.mk 1
    [ ScaleElement.mk "C4" 39 23 1, ScaleElement.mk "G4" 46 27 5 ]
    [ [ PieceElement.mk "C4" 39 23 1 0 1 ],
      [ PieceElement.mk "G4" 46 27 5 0 1 ] ]
    [ Sonority.mk
        [ PieceElement.mk "C4" 39 23 1 0 1,
          PieceElement.mk "G4" 46 27 5 0 1 ] [0, 0] "beginning",
      Sonority.mk
        [ PieceElement.mk "C4" 39 23 1 0 1,
          PieceElement.mk "G4" 46 27 5 0 1 ] [-1, -1] "ending" ]

/-- The final state of the one-pass run of the search on `crossedPiece`
with `c4Oracle`: the pass brings no improvement, so the piece is perturbed
after the final pass; the perturbed piece scores 0, strictly above the
returned best score -1, and is discarded. -/
def c4FinalState : VnsState :=
  VnsState.mk (SearchResult.mk crossedPiece (-1))
    (SearchResult.mk c4PerturbedPiece 0)
    (SearchResult.mk c4PerturbedPiece 0)
    [-1, 0] true

/-- When the interior loop succeeds it yields one sonority per interior
onset time. -/
lemma interior_sonorities_length
    {lines : List (List PieceElement)} {starts : List (List ℚ)}
    {custom : List (ℚ × String)} :
    ∀ {idxs : List ℕ} {ts : List ℚ} {l : List Sonority},
      interior_sonorities lines starts custom idxs ts = some l →
      l.length = ts.length := by
  intro idxs ts
  induction ts generalizing idxs with
  | nil =>
      intro l h
      simp only [interior_sonorities, Option.some.injEq] at h
      simp [← h]
  | cons t ts ih =>
      intro l h
      rw [interior_sonorities] at h
      obtain ⟨idxs', -, h⟩ := Option.bind_eq_some.mp h
      obtain ⟨elems, -, h⟩ := Option.bind_eq_some.mp h
      obtain ⟨rest, hrest, h⟩ := Option.bind_eq_some.mp h
      obtain rfl := (Option.some.injEq _ _).mp h
      simp [ih hrest]

/-- Structure of a successful `find_sonorities` run: the sonority count is
the number of distinct onsets (but never below two), the first sonority is
the `beginning` one with index 0 in every line, and the last is the
`ending` one with index -1 in every line. -/
lemma find_sonorities_shape
    {lines : List (List PieceElement)} {custom : List (ℚ × String)}
    {sons : List Sonority}
    (h : find_sonorities lines custom = some sons) :
    sons.length = max (numDistinctOnsets lines) 2 ∧
    (sons.head?.map fun s => (s.position_type, s.indices))
      = some ("beginning", lines.map fun _ => (0 : ℤ)) ∧
    (sons.getLast?.map fun s => (s.position_type, s.indices))
      = some ("ending", lines.map fun _ => (-1 : ℤ)) := by
  rw [find_sonorities] at h
  obtain ⟨fe, -, h⟩ := Option.bind_eq_some.mp h
  obtain ⟨interior, hint, h⟩ := Option.bind_eq_some.mp h
  obtain ⟨le, -, h⟩ := Option.bind_eq_some.mp h
  obtain rfl := (Option.some.injEq _ _).mp h
  refine ⟨?_, ?_, ?_⟩
  · have hlen := interior_sonorities_length hint
    have hsorted :
        (((lines.map fun line => line.map (·.start_time)).flatten.dedup).insertionSort
            (· ≤ ·)).length
          = numDistinctOnsets lines := by
      simp only [numDistinctOnsets]
      exact (List.perm_insertionSort (· ≤ ·)
        ((lines.map fun line => line.map (·.start_time)).flatten.dedup)).length_eq
    simp only [List.length_cons, List.length_append, List.length_singleton,
      List.length_nil]
    rw [hlen, List.length_dropLast, List.length_drop, hsorted]
    omega
  · simp [List.map_map, Function.comp]
  · rw [← List.cons_append, List.getLast?_concat]
    simp

/-- A generator-built line has strictly increasing start times, all at
least the running time, the first one equal to it. -/
lemma consistentFrom_sorted :
    ∀ (line : List PieceElement) (t : ℚ), consistentFrom t line = true →
      (line.map (·.start_time)).Sorted (· < ·) ∧
      (∀ x ∈ line.map (·.start_time), t ≤ x) ∧
      ((line.map (·.start_time)).head? = some t ∨ line = [])
  | [], t, _ => ⟨by simp, by simp, Or.inr rfl⟩
  | e :: rest, t, h => by
      rw [consistentFrom] at h
      simp only [Bool.and_eq_true, decide_eq_true_eq] at h
      obtain ⟨⟨hst, hdur⟩, hrest⟩ := h
      obtain ⟨ih1, ih2, -⟩ := consistentFrom_sorted rest (t + e.duration) hrest
      refine ⟨?_, ?_, Or.inl (by simp [hst])⟩
      · rw [List.map_cons, List.sorted_cons]
        refine ⟨fun b hb => ?_, ih1⟩
        have := ih2 b hb
        rw [hst]
        linarith
      · intro x hx
        rw [List.map_cons, List.mem_cons] at hx
        rcases hx with rfl | hx
        · rw [hst]
        · have := ih2 x hx
          linarith

/-- Elementwise description of one `advance_indices` step. -/
lemma advance_indices_spec :
    ∀ (idxs : List ℕ) (all_starts : List (List ℚ)) (t : ℚ)
      (idxs' : List ℕ),
      advance_indices idxs all_starts t = some idxs' →
      idxs'.length = min idxs.length all_starts.length ∧
      ∀ (j : ℕ) (idx : ℕ) (sl : List ℚ),
        idxs[j]? = some idx → all_starts[j]? = some sl →
        ∃ b, sl[idx + 1]? = some b ∧
          idxs'[j]? = some (if b ≤ t then idx + 1 else idx)
  | [], all_starts, t, idxs' => by
      intro h
      rw [advance_indices] at h
      simp only [List.zip_nil_left, List.mapM_nil, Option.pure_def,
        Option.some.injEq] at h
      subst h
      exact ⟨by simp, fun j idx sl hj => by simp at hj⟩
  | _ :: _, [], t, idxs' => by
      intro h
      rw [advance_indices] at h
      simp only [List.zip_nil_right, List.mapM_nil, Option.pure_def,
        Option.some.injEq] at h
      subst h
      exact ⟨by simp, fun j idx sl _ hsl => by simp at hsl⟩
  | idx :: idxs, sl :: sls, t, idxs' => by
      intro h
      rw [advance_indices] at h
      simp only [List.zip_cons_cons, List.mapM_cons] at h
      obtain ⟨v, hv, h⟩ := Option.bind_eq_some.mp h
      obtain ⟨vs, hvs, h⟩ := Option.bind_eq_some.mp h
      obtain rfl := (Option.some.injEq _ _).mp h
      obtain ⟨b, hb, hvb⟩ : ∃ b, sl[idx + 1]? = some b ∧
          v = if b ≤ t then idx + 1 else idx := by
        cases hlook : sl[idx + 1]? with
        | none => rw [hlook] at hv; exact absurd hv (by simp)
        | some b =>
            rw [hlook] at hv
            simp only [Option.some.injEq] at hv
            exact ⟨b, rfl, hv.symm⟩
      obtain ⟨ihlen, ihstep⟩ := advance_indices_spec idxs sls t vs hvs
      refine ⟨by simp only [List.length_cons, ihlen]; omega,
        fun j jidx jsl hj hsl => ?_⟩
      match j with
      | 0 =>
          simp only [List.getElem?_cons_zero, Option.some.injEq] at hj hsl
          subst hj; subst hsl
          exact ⟨b, hb, by simp [hvb]⟩
      | Nat.succ j' =>
          simp only [List.getElem?_cons_succ] at hj hsl ⊢
          exact ihstep j' jidx jsl hj hsl

/-- A sorted list of times with no omissions forms an adjacent chain with
respect to membership in any covered set. -/
lemma sorted_adjacentChain (full : List ℚ) :
    ∀ (u : ℚ) (ts : List ℚ),
      (u :: ts).Sorted (· < ·) →
      (∀ x ∈ full, x ∈ (u :: ts) ∨ x ≤ u) →
      AdjacentChain (· ∈ full) u ts
  | _, [], _, _ => trivial
  | u, t :: ts, hsort, hcov => by
      rw [List.sorted_cons] at hsort
      obtain ⟨hu, hsort'⟩ := hsort
      have hut : u < t := hu t (by simp)
      refine ⟨hut, ?_, ?_⟩
      · intro x hx hconj
        obtain ⟨hux, hxt⟩ := hconj
        rcases hcov x hx with hmemx | hle
        · rcases List.mem_cons.mp hmemx with rfl | hmemx
          · exact absurd hux (lt_irrefl _)
          rcases List.mem_cons.mp hmemx with rfl | hmemx
          · exact absurd hxt (lt_irrefl _)
          · rw [List.sorted_cons] at hsort'
            exact absurd hxt (not_lt.mpr (hsort'.1 x hmemx).le)
        · exact absurd hux (not_lt.mpr hle)
      · apply sorted_adjacentChain full t ts hsort'
        intro x hx
        rcases hcov x hx with hmemx | hle
        · rcases List.mem_cons.mp hmemx with rfl | hmemx
          · exact Or.inr hut.le
          · exact Or.inl hmemx
        · exact Or.inr (hle.trans hut.le)

/-- An adjacent chain restricted to all interior times but the last. -/
lemma adjacentChain_dropLast (P : ℚ → Prop) :
    ∀ (u : ℚ) (ts : List ℚ),
      AdjacentChain P u ts → AdjacentChain P u ts.dropLast
  | _, [], _ => trivial
  | _, [_], _ => trivial
  | u, t :: t' :: ts, h => by
      obtain ⟨h1, h2, h3⟩ := h
      exact ⟨h1, h2, adjacentChain_dropLast P t (t' :: ts) h3⟩

/-- The last-note-before characterization is monotone in the onset time. -/
lemma lastLE_mono {sl : List ℚ} (hs : sl.Sorted (· < ·)) {t t' : ℚ}
    {i i' : ℕ} (h : LastLE sl t i) (h' : LastLE sl t' i') (htt : t ≤ t') :
    i ≤ i' := by
  by_contra hcon
  push_neg at hcon
  obtain ⟨⟨a, ha, hat⟩, -⟩ := h
  obtain ⟨-, hnext⟩ := h'
  have hi : i < sl.length := by
    by_contra hbig
    rw [List.getElem?_eq_none (by omega)] at ha
    exact absurd ha (by simp)
  have hi'1 : i' + 1 < sl.length := by omega
  have hb := hnext (sl.get ⟨i' + 1, hi'1⟩)
    (by rw [List.getElem?_eq_getElem hi'1]; rfl)
  have hmono : sl.get ⟨i' + 1, hi'1⟩ ≤ sl.get ⟨i, hi⟩ := by
    rcases Nat.lt_or_ge (i' + 1) i with hlt | hge
    · exact (List.pairwise_iff_get.mp hs _ _ hlt).le
    · have hieq : i' + 1 = i := by omega
      subst hieq
      exact le_refl _
  have ha' : a = sl.get ⟨i, hi⟩ := by
    rw [List.getElem?_eq_getElem hi] at ha
    simpa using ha.symm
  rw [ha'] at hat
  linarith

/-- Main invariant of the interior loop of `find_sonorities`: processing
an adjacent chain of interior onsets starting from indices that point at
the last note sounding at the previous onset, every produced sonority
records, for each line, the index of the last note whose start time is at
most that sonority's onset. -/
lemma interior_loop_lastLE
    (lines : List (List PieceElement)) (all_starts : List (List ℚ))
    (custom : List (ℚ × String)) (P : ℚ → Prop)
    (hmem : ∀ sl ∈ all_starts, ∀ x ∈ sl, P x)
    (hsorted : ∀ sl ∈ all_starts, sl.Sorted (· < ·)) :
    ∀ (ts : List ℚ) (u : ℚ) (idxs : List ℕ) (sons : List Sonority),
      AdjacentChain P u ts →
      idxs.length = all_starts.length →
      (∀ (j idx : ℕ) (sl : List ℚ), idxs[j]? = some idx →
        all_starts[j]? = some sl → LastLE sl u idx) →
      interior_sonorities lines all_starts custom idxs ts = some sons →
      ∀ (k : ℕ) (t : ℚ), ts[k]? = some t →
        ∀ (j : ℕ) (sl : List ℚ), all_starts[j]? = some sl →
          ∃ son i, sons[k]? = some son ∧
            son.indices[j]? = some (Int.ofNat i) ∧ LastLE sl t i
  | [], _, idxs, sons => by
      intro _ _ _ _ k t hk
      simp at hk
  | t :: ts, u, idxs, sons => by
      intro hchain hlen hinv h
      obtain ⟨hut, hgap, hchain'⟩ := hchain
      rw [interior_sonorities] at h
      obtain ⟨idxs', hadv, h⟩ := Option.bind_eq_some.mp h
      obtain ⟨elems, -, h⟩ := Option.bind_eq_some.mp h
      obtain ⟨rest, hrest, h⟩ := Option.bind_eq_some.mp h
      obtain rfl := (Option.some.injEq _ _).mp h
      obtain ⟨hlen', hstep⟩ := advance_indices_spec idxs all_starts t
        idxs' hadv
      have hlen'' : idxs'.length = all_starts.length := by
        rw [hlen']; omega
      have hinv' : ∀ (j idx' : ℕ) (sl : List ℚ), idxs'[j]? = some idx' →
          all_starts[j]? = some sl → LastLE sl t idx' := by
        intro j idx' sl hj' hsl
        have hjlen : j < all_starts.length := by
          by_contra hbig
          rw [List.getElem?_eq_none (by omega)] at hsl
          exact absurd hsl (by simp)
        obtain ⟨idx, hj⟩ : ∃ idx, idxs[j]? = some idx :=
          ⟨_, List.getElem?_eq_getElem (by omega)⟩
        obtain ⟨b, hb, hval⟩ := hstep j idx sl hj hsl
        rw [hj'] at hval
        replace hval := (Option.some.injEq _ _).mp hval
        obtain ⟨⟨a, ha, hau⟩, hnext⟩ := hinv j idx sl hj hsl
        have hub : u < b := hnext b hb
        have hslSorted := hsorted sl (List.getElem?_mem hsl)
        by_cases hbt : b ≤ t
        · rw [if_pos hbt] at hval
          subst hval
          refine ⟨⟨b, hb, hbt⟩, fun c hc => ?_⟩
          by_contra hct
          push_neg at hct
          have hbc : b < c := by
            have hb1 : idx + 1 < sl.length := by
              by_contra hbig
              rw [List.getElem?_eq_none (by omega)] at hb
              exact absurd hb (by simp)
            have hc1 : idx + 1 + 1 < sl.length := by
              by_contra hbig
              rw [List.getElem?_eq_none (by omega)] at hc
              exact absurd hc (by simp)
            have := List.pairwise_iff_get.mp hslSorted ⟨idx + 1, hb1⟩
              ⟨idx + 1 + 1, hc1⟩ (by simp)
            rw [List.getElem?_eq_getElem hb1] at hb
            rw [List.getElem?_eq_getElem hc1] at hc
            obtain rfl : b = sl.get ⟨idx + 1, hb1⟩ := by simpa using hb.symm
            obtain rfl : c = sl.get ⟨idx + 1 + 1, hc1⟩ := by
              simpa using hc.symm
            exact this
          exact hgap b (hmem sl (List.getElem?_mem hsl) b
            (List.getElem?_mem hb)) ⟨hub, by linarith⟩
        · rw [if_neg hbt] at hval
          subst hval
          push_neg at hbt
          exact ⟨⟨a, ha, le_trans hau hut.le⟩, fun c hc => by
            rw [hb] at hc
            obtain rfl := (Option.some.injEq _ _).mp hc.symm
            exact hbt⟩
      intro k t' hk j sl hsl
      match k with
      | 0 =>
          simp only [List.getElem?_cons_zero, Option.some.injEq] at hk
          subst hk
          have hjlen : j < idxs'.length := by
            rw [hlen'']
            by_contra hbig
            rw [List.getElem?_eq_none (by omega)] at hsl
            exact absurd hsl (by simp)
          obtain ⟨idx', hj'⟩ : ∃ idx', idxs'[j]? = some idx' :=
            ⟨_, List.getElem?_eq_getElem hjlen⟩
          refine ⟨Sonority.mk elems (idxs'.map Int.ofNat)
            (position_type_of custom t), idx', List.getElem?_cons_zero, ?_,
            hinv' j idx' sl hj' hsl⟩
          simp only [List.getElem?_map, hj', Option.map_some']
      | Nat.succ k' =>
          simp only [List.getElem?_cons_succ] at hk ⊢
          exact interior_loop_lastLE lines all_starts custom P hmem
            hsorted ts t idxs' rest hchain' hlen'' hinv' hrest k' t' hk
            j sl hsl

/-- A fold subtracting 1 per element satisfying `p` counts the satisfying
elements. -/
lemma foldl_sub_one_eq {α : Type} (p : α → Bool) :
    ∀ (l : List α) (a : ℚ),
      l.foldl (fun score x => if p x then score - 1 else score) a
        = a - (l.countP p : ℚ)
  | [], a => by simp
  | x :: xs, a => by
      by_cases hx : p x <;>
        simp [List.foldl_cons, hx, foldl_sub_one_eq p xs,
          List.countP_cons, sub_sub] <;> push_cast <;> ring

/-- Elements bounded on both sides bound the list sum. -/
lemma list_sum_bounds {l : List ℚ} {lo hi : ℚ}
    (h : ∀ x ∈ l, lo ≤ x ∧ x ≤ hi) :
    (l.length : ℚ) * lo ≤ l.sum ∧ l.sum ≤ (l.length : ℚ) * hi := by
  induction l with
  | nil => simp
  | cons x xs ih =>
      obtain ⟨h1, h2⟩ := h x (by simp)
      obtain ⟨ih1, ih2⟩ := ih (fun y hy => h y (by simp [hy]))
      constructor <;> simp only [List.sum_cons, List.length_cons] <;>
        push_cast <;> nlinarith

/-- `combinations2` produces `n * (n - 1) / 2` pairs. -/
lemma combinations2_length {α : Type} :
    ∀ l : List α, 2 * (combinations2 l).length = l.length * (l.length - 1)
  | [] => by simp [combinations2]
  | x :: xs => by
      have ih := combinations2_length xs
      simp only [combinations2, List.length_append, List.length_map,
        List.length_cons, Nat.add_sub_cancel]
      cases hm : xs.length with
      | zero => rw [hm] at ih; omega
      | succ k =>
          rw [hm] at ih
          simp only [Nat.add_sub_cancel] at ih
          have hexp : 2 * (k + 1 + (combinations2 xs).length)
              = 2 * (k + 1) + 2 * (combinations2 xs).length := by ring
          rw [hexp, ih]
          ring

/-- The harmonic stability of a sonority with at least two elements lies in
[0, 1] whenever the stability table does. -/
lemma harmonic_stability_bounds (elements : List PieceElement)
    (tbl : ℕ → ℚ) (hlen : 2 ≤ elements.length)
    (htbl : ∀ k, 0 ≤ tbl k ∧ tbl k ≤ 1) :
    0 ≤ compute_harmonic_stability_of_sonority elements tbl ∧
    compute_harmonic_stability_of_sonority elements tbl ≤ 1 := by
  rw [compute_harmonic_stability_of_sonority]
  set vals := (combinations2 elements).map (fun p =>
    tbl ((p.1.position_in_semitones - p.2.position_in_semitones).natAbs
      % 12)) with hvals
  have hbounds := @list_sum_bounds vals 0 1
    (fun x hx => by
      obtain ⟨q, -, rfl⟩ := List.mem_map.mp hx
      exact htbl _)
  have hcount : (vals.length : ℚ)
      = (elements.length : ℚ) * ((elements.length : ℚ) - 1) / 2 := by
    have h2 := combinations2_length elements
    have hq : ((2 * (combinations2 elements).length : ℕ) : ℚ)
        = ((elements.length * (elements.length - 1) : ℕ) : ℚ) :=
      Nat.cast_inj.mpr h2
    rw [Nat.cast_mul, Nat.cast_mul,
      Nat.cast_sub (by omega : 1 ≤ elements.length)] at hq
    simp only [hvals, List.length_map]
    push_cast at hq ⊢
    linarith
  have hpos : 0 < (elements.length : ℚ) * ((elements.length : ℚ) - 1) / 2 := by
    have h2q : (2 : ℚ) ≤ (elements.length : ℚ) := by exact_mod_cast hlen
    nlinarith
  have hsum0 : 0 ≤ vals.sum := by
    have := hbounds.1
    simpa using this
  constructor
  · exact div_nonneg hsum0 hpos.le
  · rw [div_le_one hpos]
    calc vals.sum ≤ (vals.length : ℚ) * 1 := hbounds.2
    _ = (elements.length : ℚ) * ((elements.length : ℚ) - 1) / 2 := by
        rw [mul_one, hcount]

/-- The tonal stability of a non-empty sonority lies in [0, 1] whenever the
degree stability table does. -/
lemma tonal_stability_bounds (elements : List PieceElement)
    (deg : ℤ → ℚ) (hlen : 1 ≤ elements.length)
    (hdeg : ∀ d, 0 ≤ deg d ∧ deg d ≤ 1) :
    0 ≤ compute_tonal_stability_of_sonority elements deg ∧
    compute_tonal_stability_of_sonority elements deg ≤ 1 := by
  rw [compute_tonal_stability_of_sonority]
  set vals := elements.map (fun x => deg x.degree) with hvals
  have hbounds := @list_sum_bounds vals 0 1
    (fun x hx => by
      obtain ⟨q, -, rfl⟩ := List.mem_map.mp hx
      exact hdeg _)
  have hpos : 0 < (elements.length : ℚ) := by exact_mod_cast hlen
  have hvlen : (vals.length : ℚ) = (elements.length : ℚ) := by
    simp [hvals]
  constructor
  · exact div_nonneg (by simpa using hbounds.1) hpos.le
  · rw [div_le_one hpos]
    calc vals.sum ≤ (vals.length : ℚ) * 1 := hbounds.2
    _ = (elements.length : ℚ) := by rw [mul_one, hvlen]

/-- A sonority's banded stability contribution
`min (s - mn) 0 + min (mx - s) 0` lies in [-1, 0] when `s`, `mn` and `mx`
all lie in [0, 1]. -/
lemma band_contribution_bounds {s mn mx : ℚ}
    (hs : 0 ≤ s ∧ s ≤ 1) (hmn : 0 ≤ mn ∧ mn ≤ 1) (hmx : 0 ≤ mx ∧ mx ≤ 1) :
    -1 ≤ min (s - mn) 0 + min (mx - s) 0 ∧
    min (s - mn) 0 + min (mx - s) 0 ≤ 0 := by
  rcases le_total (s - mn) 0 with h1 | h1 <;>
    rcases le_total (mx - s) 0 with h2 | h2 <;>
    simp only [min_eq_left, min_eq_right, h1, h2] <;>
    constructor <;> linarith

/-- A banded stability evaluation (the common body of
`evaluate_harmonic_stability` and `evaluate_tonal_stability`) lies in
[-1, 0] as soon as each sonority's contribution does. -/
lemma banded_score_bounds (sonorities : List Sonority) (f : Sonority → ℚ)
    (hne : sonorities ≠ [])
    (hf : ∀ s ∈ sonorities, -1 ≤ f s ∧ f s ≤ 0) :
    -1 ≤ (sonorities.map f).sum / (sonorities.length : ℚ) ∧
    (sonorities.map f).sum / (sonorities.length : ℚ) ≤ 0 := by
  have hlen : 0 < (sonorities.length : ℚ) := by
    have : 0 < sonorities.length := List.length_pos.mpr hne
    exact_mod_cast this
  have hbounds := @list_sum_bounds (sonorities.map f) (-1) 0
    (fun x hx => by
      obtain ⟨s, hs, rfl⟩ := List.mem_map.mp hx
      exact hf s hs)
  constructor
  · rw [le_div_iff₀ hlen]
    calc (-1 : ℚ) * (sonorities.length : ℚ)
        = ((sonorities.map f).length : ℚ) * (-1) := by
          rw [List.length_map]; ring
    _ ≤ (sonorities.map f).sum := hbounds.1
  · apply div_nonpos_of_nonpos_of_nonneg _ hlen.le
    calc (sonorities.map f).sum ≤ ((sonorities.map f).length : ℚ) * 0 :=
      hbounds.2
    _ = 0 := by ring

/-- `itertools.combinations(l, n)` is empty when `n` exceeds the number of
elements. -/
lemma combinations_eq_nil {α : Type} :
    ∀ (n : ℕ) (l : List α), l.length < n → combinations n l = []
  | 0, _, h => absurd h (by omega)
  | _ + 1, [], _ => rfl
  | n + 1, x :: xs, h => by
      have h1 : xs.length < n := by simpa using Nat.lt_of_succ_lt_succ h
      rw [combinations, combinations_eq_nil n xs h1,
        combinations_eq_nil (n + 1) xs (by omega)]
      rfl

/-- What the update loop of `set_new_values_for_sonority` does to each
melodic line: lines beyond the zipped range are untouched, and a line
paired with index `idx` and replacement `v` has exactly its element at the
resolved position replaced, with the old start time and duration. -/
lemma update_lines_spec :
    ∀ (lines : List (List PieceElement)) (idxs : List ℤ)
      (vs : List ScaleElement) (lines' : List (List PieceElement)),
      update_lines lines idxs vs = some lines' →
      lines'.length = lines.length ∧
      ∀ i : ℕ, i < lines.length →
        ((idxs[i]? = none ∨ vs[i]? = none) → lines'[i]? = lines[i]?) ∧
        (∀ idx v, idxs[i]? = some idx → vs[i]? = some v →
          ∃ ml k old, lines[i]? = some ml ∧
            pyIdx ml.length idx = some k ∧ ml[k]? = some old ∧
            lines'[i]? = some (ml.set k (replacement_element v old)))
  | lines, [], vs, lines' => by
      intro h
      rw [update_lines] at h
      obtain rfl := (Option.some.injEq _ _).mp h
      refine ⟨rfl, fun i _ => ⟨fun _ => rfl, fun idx v hidx _ => ?_⟩⟩
      simp at hidx
  | lines, idx :: idxs, [], lines' => by
      intro h
      rw [update_lines] at h
      obtain rfl := (Option.some.injEq _ _).mp h
      refine ⟨rfl, fun i _ => ⟨fun _ => rfl, fun idx v _ hv => ?_⟩⟩
      simp at hv
  | [], idx :: idxs, v :: vs, lines' => by
      intro h
      rw [update_lines] at h
      obtain rfl := (Option.some.injEq _ _).mp h
      exact ⟨rfl, fun i hi => absurd hi (by simp)⟩
  | line :: lines, idx :: idxs, v :: vs, lines' => by
      intro h
      rw [update_lines] at h
      obtain ⟨old, hold, h⟩ := Option.bind_eq_some.mp h
      obtain ⟨line1, hline1, h⟩ := Option.bind_eq_some.mp h
      obtain ⟨rest, hrest, h⟩ := Option.bind_eq_some.mp h
      obtain rfl := (Option.some.injEq _ _).mp h
      obtain ⟨hrlen, hr⟩ := update_lines_spec lines idxs vs rest hrest
      refine ⟨by simpa using hrlen, fun i hi => ?_⟩
      match i with
      | 0 =>
          refine ⟨fun hcon => ?_, fun idx' v' hidx' hv' => ?_⟩
          · rcases hcon with hcon | hcon <;> simp at hcon
          · simp only [List.getElem?_cons_zero, Option.some.injEq] at hidx' hv'
            subst hidx'; subst hv'
            rw [pyGet] at hold
            rw [pySet] at hline1
            obtain ⟨k, hk, hget⟩ := Option.bind_eq_some.mp hold
            rw [hk] at hline1
            simp only [Option.map_some', Option.some.injEq] at hline1
            exact ⟨line, k, old, by simp, hk, hget, by simp [← hline1]⟩
      | Nat.succ j =>
          have hj : j < lines.length := by simpa using hi
          obtain ⟨hr1, hr2⟩ := hr j hj
          refine ⟨fun hcon => ?_, fun idx' v' hidx' hv' => ?_⟩
          · simpa using hr1 (by simpa using hcon)
          · simp only [List.getElem?_cons_succ] at hidx' hv' ⊢
            exact hr2 idx' v' hidx' hv'

/-- The score component of `evaluate` does not depend on the verbose flag
nor on the diagnostic log accumulated so far. -/
lemma evaluate_foldl_fst (piece : Piece) (p : ScoringFnParams) :
    ∀ (l : List (ScoringFnName × ℚ)) (a : ℚ)
      (log₁ log₂ : List (ScoringFnName × ℚ)) (v₁ v₂ : Bool),
      (l.foldl (fun acc nw =>
        let curr_score := nw.2 * apply_scoring_function nw.1 piece p
        (acc.1 + curr_score,
          if v₁ then acc.2 ++ [(nw.1, curr_score)] else acc.2)) (a, log₁)).1
        = (l.foldl (fun acc nw =>
          let curr_score := nw.2 * apply_scoring_function nw.1 piece p
          (acc.1 + curr_score,
            if v₂ then acc.2 ++ [(nw.1, curr_score)] else acc.2))
            (a, log₂)).1
  | [], a, log₁, log₂, v₁, v₂ => rfl
  | nw :: l, a, log₁, log₂, v₁, v₂ => by
      simp only [List.foldl_cons]
      exact evaluate_foldl_fst piece p l _ _ _ v₁ v₂

/-- The alternative loop never lowers the tracked score, every score it
evaluates is bounded by the final tracked score, and the tracked score
stays the evaluation of the tracked piece. -/
lemma try_alternatives_spec (sonority_position : ℤ) (fraction_to_try : ℚ)
    (scoring_coefs : List (ScoringFnName × ℚ)) (p : ScoringFnParams)
    (randoms : ℕ → ℚ) :
    ∀ (alts : List (List ScaleElement)) (k : ℕ) (piece : Piece)
      (result out : SearchResult) (tr : List ℚ),
      try_alternatives sonority_position fraction_to_try scoring_coefs p
        randoms alts k piece result = some (out, tr) →
      result.score ≤ out.score ∧ (∀ s ∈ tr, s ≤ out.score) ∧
      (result.score = (evaluate result.piece scoring_coefs p false).1 →
        out.score = (evaluate out.piece scoring_coefs p false).1)
  | [], _, piece, result, out, tr => by
      intro h
      rw [try_alternatives] at h
      simp only [Option.some.injEq, Prod.mk.injEq] at h
      obtain ⟨rfl, rfl⟩ := h
      exact ⟨le_refl _, by simp, fun hok => hok⟩
  | alt :: alts, k, piece, result, out, tr => by
      intro h
      rw [try_alternatives] at h
      by_cases hskip : fraction_to_try < randoms k
      · rw [if_pos hskip] at h
        exact try_alternatives_spec sonority_position fraction_to_try
          scoring_coefs p randoms alts (k + 1) piece result out tr h
      · rw [if_neg hskip] at h
        obtain ⟨piece', -, h⟩ := Option.bind_eq_some.mp h
        obtain ⟨q, hrec, h⟩ := Option.bind_eq_some.mp h
        obtain ⟨final, trace⟩ := q
        simp only [Option.some.injEq, Prod.mk.injEq] at h
        obtain ⟨rfl, rfl⟩ := h
        obtain ⟨ih1, ih2, ih3⟩ := try_alternatives_spec sonority_position
          fraction_to_try scoring_coefs p randoms alts (k + 1) piece'
          (if result.score < (evaluate piece' scoring_coefs p false).1
            then SearchResult.mk piece'
              (evaluate piece' scoring_coefs p false).1
            else result) final trace hrec
        by_cases himp : result.score
            < (evaluate piece' scoring_coefs p false).1
        · rw [if_pos himp] at ih1 ih3
          refine ⟨le_trans himp.le ih1, ?_, fun _ => ih3 rfl⟩
          intro s hs
          rcases List.mem_cons.mp hs with rfl | hs
          · exact le_trans ih1 (le_refl _) |>.trans_eq' rfl
          · exact ih2 s hs
        · rw [if_neg himp] at ih1 ih3
          refine ⟨ih1, ?_, ih3⟩
          intro s hs
          rcases List.mem_cons.mp hs with rfl | hs
          · exact le_trans (le_of_not_lt himp) ih1
          · exact ih2 s hs

/-- `update_one_sonority` inherits the alternative-loop properties. -/
lemma update_one_sonority_spec (result : SearchResult)
    (sonority_position : ℤ) (fraction_to_try : ℚ)
    (scoring_coefs : List (ScoringFnName × ℚ)) (p : ScoringFnParams)
    (randoms : ℕ → ℚ) (out : SearchResult) (tr : List ℚ)
    (h : update_one_sonority result sonority_position fraction_to_try
      scoring_coefs p randoms = some (out, tr)) :
    result.score ≤ out.score ∧ (∀ s ∈ tr, s ≤ out.score) ∧
    (result.score = (evaluate result.piece scoring_coefs p false).1 →
      out.score = (evaluate out.piece scoring_coefs p false).1) :=
  try_alternatives_spec sonority_position fraction_to_try scoring_coefs p
    randoms _ 0 result.piece result out tr h

/-- The position loop of one pass inherits the same properties. -/
lemma update_positions_spec (fraction_to_try : ℚ)
    (scoring_coefs : List (ScoringFnName × ℚ)) (p : ScoringFnParams)
    (randoms : ℕ → ℕ → ℚ) :
    ∀ (positions : List ℕ) (result out : SearchResult) (tr : List ℚ),
      update_positions fraction_to_try scoring_coefs p randoms positions
        result = some (out, tr) →
      result.score ≤ out.score ∧ (∀ s ∈ tr, s ≤ out.score) ∧
      (result.score = (evaluate result.piece scoring_coefs p false).1 →
        out.score = (evaluate out.piece scoring_coefs p false).1)
  | [], result, out, tr => by
      intro h
      rw [update_positions] at h
      simp only [Option.some.injEq, Prod.mk.injEq] at h
      obtain ⟨rfl, rfl⟩ := h
      exact ⟨le_refl _, by simp, fun hok => hok⟩
  | pos :: rest, result, out, tr => by
      intro h
      rw [update_positions] at h
      obtain ⟨q1, h1, h⟩ := Option.bind_eq_some.mp h
      obtain ⟨result', trace'⟩ := q1
      obtain ⟨q2, h2, h⟩ := Option.bind_eq_some.mp h
      obtain ⟨final, trace''⟩ := q2
      simp only [Option.some.injEq, Prod.mk.injEq] at h
      obtain ⟨rfl, rfl⟩ := h
      obtain ⟨u1, u2, u3⟩ := update_one_sonority_spec result pos
        fraction_to_try scoring_coefs p (randoms pos) result' trace' h1
      obtain ⟨v1, v2, v3⟩ := update_positions_spec fraction_to_try
        scoring_coefs p randoms rest result' final trace'' h2
      refine ⟨le_trans u1 v1, ?_, fun hok => v3 (u3 hok)⟩
      intro s hs
      rcases List.mem_append.mp hs with hs | hs
      · exact le_trans (u2 s hs) v1
      · exact v2 s hs

/-- One pass never lowers the best score, replaces the best result only on
strict improvement of the end-of-pass current score, and preserves the
trace invariant. -/
lemma vns_pass_spec (n_sonorities : ℕ) (fraction_to_try : ℚ)
    (scoring_coefs : List (ScoringFnName × ℚ)) (p : ScoringFnParams)
    (oracle : PassOracle) (st st' : VnsState)
    (h : vns_pass n_sonorities fraction_to_try scoring_coefs p oracle st
      = some st') :
    st.best.score ≤ st'.best.score ∧
    (st'.best = st.best ∨ st.best.score < st'.best.score) ∧
    (VnsInvariant scoring_coefs p st →
      VnsInvariant scoring_coefs p st') := by
  rw [vns_pass] at h
  obtain ⟨q, hup, h⟩ := Option.bind_eq_some.mp h
  obtain ⟨u1, u2, u3⟩ := update_positions_spec fraction_to_try scoring_coefs
    p oracle.update_randoms (List.range n_sonorities) st.current q.1
    q.2 (by rw [hup])
  set result := q.1 with hresult
  set trace' := q.2 with htrace
  by_cases himp : st.best.score < result.score
  · rw [if_pos himp] at h
    obtain rfl := (Option.some.injEq _ _).mp h
    refine ⟨himp.le, Or.inr himp, fun hinv => ?_⟩
    obtain ⟨i1, -, i3, i4⟩ := hinv
    refine ⟨?_, fun _ => ?_, u3 i4, u3 i4⟩ <;>
      · intro s hs
        simp only [max_self]
        rcases List.mem_append.mp hs with hs | hs
        · exact le_trans (i1 s hs)
            (max_le himp.le (le_trans u1 (le_refl _)))
        · exact u2 s hs
  · rw [if_neg himp] at h
    push_neg at himp
    by_cases hprev : result.score ≤ st.previous.score
    · rw [if_pos hprev] at h
      obtain ⟨new_piece, -, h⟩ := Option.map_eq_some'.mp h
      subst h
      refine ⟨le_refl _, Or.inl rfl, fun hinv => ?_⟩
      obtain ⟨i1, -, i3, i4⟩ := hinv
      refine ⟨?_, fun hcon => by simp at hcon, i3, ?_⟩
      · intro s hs
        simp only [List.append_assoc, List.mem_append] at hs
        rcases hs with hs | hs
        · exact le_trans (i1 s hs)
            (le_max_of_le_left (max_le (le_refl _) (le_trans u1 himp)))
        rcases hs with hs | hs
        · exact le_trans (u2 s hs) (le_max_of_le_left himp)
        · simp only [List.mem_singleton] at hs
          subst hs
          exact le_max_right _ _
      · simp only
        exact (evaluate_foldl_fst new_piece p scoring_coefs 0 [] []
          true false)
    · rw [if_neg hprev] at h
      obtain rfl := (Option.some.injEq _ _).mp h
      refine ⟨le_refl _, Or.inl rfl, fun hinv => ?_⟩
      obtain ⟨i1, -, i3, i4⟩ := hinv
      refine ⟨?_, fun _ => ?_, i3, u3 i4⟩
      · intro s hs
        rcases List.mem_append.mp hs with hs | hs
        · exact le_trans (i1 s hs)
            (max_le_max (le_refl _) (le_trans u1 (le_refl _)))
        · exact le_trans (u2 s hs) (le_max_right _ _)
      · intro s hs
        rcases List.mem_append.mp hs with hs | hs
        · exact le_trans (i1 s hs) (max_le (le_refl _) (le_trans u1 himp))
        · exact le_trans (u2 s hs) himp

/-- Folding passes never lowers the best score and preserves the
invariant. -/
lemma vns_fold_spec (n_sonorities : ℕ) (fraction_to_try : ℚ)
    (scoring_coefs : List (ScoringFnName × ℚ)) (p : ScoringFnParams) :
    ∀ (oracles : List PassOracle) (st st' : VnsState),
      oracles.foldlM
        (fun st oracle => vns_pass n_sonorities fraction_to_try
          scoring_coefs p oracle st) st = some st' →
      st.best.score ≤ st'.best.score ∧
      (VnsInvariant scoring_coefs p st →
        VnsInvariant scoring_coefs p st')
  | [], st, st' => by
      intro h
      simp only [List.foldlM_nil] at h
      obtain rfl := (Option.some.injEq _ _).mp h
      exact ⟨le_refl _, fun hinv => hinv⟩
  | oracle :: oracles, st, st' => by
      intro h
      simp only [List.foldlM_cons] at h
      obtain ⟨st₁, h1, h2⟩ := Option.bind_eq_some.mp h
      obtain ⟨p1, -, p3⟩ := vns_pass_spec n_sonorities fraction_to_try
        scoring_coefs p oracle st st₁ h1
      obtain ⟨f1, f3⟩ := vns_fold_spec n_sonorities fraction_to_try
        scoring_coefs p oracles st₁ st' h2
      exact ⟨le_trans p1 f1, fun hinv => f3 (p3 hinv)⟩

end Geniartor

namespace Geniartor

/-- C1: the 2-measure, 2-voice scenario yields exactly 4 sonorities tagged
`beginning, middle, downbeat, ending` with indices
`[0,0], [1,0], [2,1], [-1,-1]`. -/
theorem c1_scenario_sonorities :
    (find_sonorities [scenarioLine1, scenarioLine2] []).map
        (fun sons =>
          (sons.length, sons.map (·.position_type), sons.map (·.indices)))
      = some (4, ["beginning", "middle", "downbeat", "ending"],
          [[0, 0], [1, 0], [2, 1], [-1, -1]]) := by
  decide

/-- C3 counterexample: on a family whose lines share a single distinct
onset time, `find_sonorities` yields 2 sonorities, not 1, so the sonority
count does not equal the number of distinct note-start times. -/
theorem c3_counterexample_single_onset :
    (find_sonorities singleOnsetLines []).map List.length
      ≠ some (numDistinctOnsets singleOnsetLines) := by
  decide

/-- C3 (amended): whenever `find_sonorities` returns a result, the number of
sonorities equals the number of distinct note-start times across all lines
or 2, whichever is larger; the first sonority is always tagged `beginning`
and the last always `ending`, regardless of the fractional part of their
onset times. -/
theorem c3_sonority_count_and_tags
    {lines : List (List PieceElement)} {custom : List (ℚ × String)}
    {sons : List Sonority}
    (h : find_sonorities lines custom = some sons) :
    sons.length = max (numDistinctOnsets lines) 2 ∧
    sons.head?.map (·.position_type) = some "beginning" ∧
    sons.getLast?.map (·.position_type) = some "ending" := by
  obtain ⟨h1, h2, h3⟩ := find_sonorities_shape h
  refine ⟨h1, ?_, ?_⟩
  · cases hh : sons.head? with
    | none => rw [hh] at h2; exact absurd h2 (by simp)
    | some s =>
        rw [hh] at h2
        simp only [Option.map_some', Option.some.injEq, Prod.mk.injEq] at h2
        simp [h2.1]
  · cases hg : sons.getLast? with
    | none => rw [hg] at h3; exact absurd h3 (by simp)
    | some s =>
        rw [hg] at h3
        simp only [Option.map_some', Option.some.injEq, Prod.mk.injEq] at h3
        simp [h3.1]

/-- C3 witness: the amended statement evaluated on the concrete scenario
piece, which has 4 distinct onsets. -/
theorem c3_sonority_count_and_tags_witness :
    (find_sonorities [scenarioLine1, scenarioLine2] []).map
        (fun sons =>
          (sons.length, sons.head?.map (·.position_type),
            sons.getLast?.map (·.position_type)))
      = some (max (numDistinctOnsets [scenarioLine1, scenarioLine2]) 2,
          some "beginning", some "ending") := by
  cases hsons : find_sonorities [scenarioLine1, scenarioLine2] [] with
  | none => exact absurd hsons (by decide)
  | some sons =>
      obtain ⟨h1, h2, h3⟩ := c3_sonority_count_and_tags hsons
      simp [h1, h2, h3]

/-- C10 counterexample: a non-empty family of non-empty melodic lines on
which `find_sonorities` does not return sonorities at all: the interior
loop reads past the end of the first line (`IndexError`), because that
line's last note starts before the last interior onset. -/
theorem c10_counterexample_crash :
    crashLinesA ≠ [] ∧ (∀ l ∈ crashLinesA, l ≠ []) ∧
    find_sonorities crashLinesA [] = none := by
  refine ⟨by decide, by decide, by decide⟩

/-- C10 (amended): for every non-empty family of non-empty melodic lines on
which `find_sonorities` succeeds, it returns at least two sonorities; the
first has position type `beginning` with index 0 in every line and the last
has position type `ending` with index -1 in every line; when the lines
share a single distinct onset time, exactly two sonorities are produced. -/
theorem c10_first_and_last_sonorities
    {lines : List (List PieceElement)} {custom : List (ℚ × String)}
    {sons : List Sonority}
    (hne : lines ≠ []) (hlne : ∀ l ∈ lines, l ≠ [])
    (h : find_sonorities lines custom = some sons) :
    2 ≤ sons.length ∧
    sons.head?.map (fun s => (s.position_type, s.indices))
      = some ("beginning", lines.map fun _ => (0 : ℤ)) ∧
    sons.getLast?.map (fun s => (s.position_type, s.indices))
      = some ("ending", lines.map fun _ => (-1 : ℤ)) ∧
    (numDistinctOnsets lines = 1 → sons.length = 2) := by
  obtain ⟨h1, h2, h3⟩ := find_sonorities_shape h
  refine ⟨by omega, h2, h3, fun hone => by rw [h1, hone]; rfl⟩

/-- C10 witness: the amended statement evaluated on a concrete family of
two one-note lines sharing a single onset. -/
theorem c10_first_and_last_sonorities_witness :
    (find_sonorities sharedOnsetLines []).map
        (fun sons =>
          (sons.length,
            sons.head?.map fun s => (s.position_type, s.indices),
            sons.getLast?.map fun s => (s.position_type, s.indices)))
      = some (2,
          some ("beginning", sharedOnsetLines.map fun _ => (0 : ℤ)),
          some ("ending", sharedOnsetLines.map fun _ => (-1 : ℤ))) := by
  cases hsons : find_sonorities sharedOnsetLines [] with
  | none => exact absurd hsons (by decide)
  | some sons =>
      obtain ⟨-, h2, h3, h4⟩ :=
        c10_first_and_last_sonorities (by decide) (by decide) hsons
      simp [h2, h3, h4 (by decide)]

/-- C5 counterexample: on `unisonPiece`, whose ending sonority holds a
unison (equal adjacent pitches, hence non-decreasing voices), the source
still subtracts 1 (its test is `>=`), so the returned score differs from
the spec's "not non-decreasing" reading. -/
theorem c5_counterexample_unison :
    evaluate_absence_of_voice_crossing unisonPiece
      ≠ voice_crossing_score_per_spec unisonPiece := by
  decide

/-- C5 (amended): `evaluate_absence_of_voice_crossing` subtracts 1 for
exactly those sonorities whose voices, taken in declaration order, are not
*strictly increasing* in pitch height (equal adjacent pitches also count as
a violation), and divides the total by the sonority count; in particular,
when exactly one sonority violates this it returns -1 divided by the number
of sonorities. -/
theorem c5_voice_crossing_counts (piece : Piece) :
    evaluate_absence_of_voice_crossing piece
      = -(piece.sonorities.countP voices_not_strictly_increasing : ℚ)
        / (piece.sonorities.length : ℚ) ∧
    (piece.sonorities.countP voices_not_strictly_increasing = 1 →
      evaluate_absence_of_voice_crossing piece
        = -1 / (piece.sonorities.length : ℚ)) := by
  have hfold :
      evaluate_absence_of_voice_crossing piece
        = -(piece.sonorities.countP voices_not_strictly_increasing : ℚ)
          / (piece.sonorities.length : ℚ) := by
    rw [evaluate_absence_of_voice_crossing]
    rw [show (piece.sonorities.foldl (fun score sonority =>
        if (sonority.elements.zip sonority.elements.tail).any (fun p =>
            decide (p.2.position_in_semitones ≤ p.1.position_in_semitones))
        then score - 1 else score) 0)
      = 0 - (piece.sonorities.countP voices_not_strictly_increasing : ℚ)
      from foldl_sub_one_eq voices_not_strictly_increasing
        piece.sonorities 0]
    ring_nf
  refine ⟨hfold, fun hone => ?_⟩
  rw [hfold, hone]
  norm_num

/-- C5 witness: the amended statement applied to `unisonPiece`, where
exactly one of the two sonorities (the unison one) is a violation, giving
a score of -1/2. -/
theorem c5_voice_crossing_counts_witness :
    evaluate_absence_of_voice_crossing unisonPiece
      = -1 / (unisonPiece.sonorities.length : ℚ) :=
  (c5_voice_crossing_counts unisonPiece).2 (by decide)

/-- C6: for every piece with at least one sonority, each sonority holding
at least two voices, and stability tables and per-position-type bands all
valued in [0, 1], `evaluate_harmonic_stability` and
`evaluate_tonal_stability` both return a value within [-1, 0]. -/
theorem c6_stability_scores_bounded (piece : Piece)
    (hmins hmaxs : String → ℚ) (tbl : ℕ → ℚ)
    (tmins tmaxs : String → ℚ) (deg : ℤ → ℚ)
    (hne : piece.sonorities ≠ [])
    (hvoices : ∀ s ∈ piece.sonorities, 2 ≤ s.elements.length)
    (htbl : ∀ k, 0 ≤ tbl k ∧ tbl k ≤ 1)
    (hhmin : ∀ t, 0 ≤ hmins t ∧ hmins t ≤ 1)
    (hhmax : ∀ t, 0 ≤ hmaxs t ∧ hmaxs t ≤ 1)
    (hdeg : ∀ d, 0 ≤ deg d ∧ deg d ≤ 1)
    (htmin : ∀ t, 0 ≤ tmins t ∧ tmins t ≤ 1)
    (htmax : ∀ t, 0 ≤ tmaxs t ∧ tmaxs t ≤ 1) :
    (-1 ≤ evaluate_harmonic_stability piece hmins hmaxs tbl ∧
      evaluate_harmonic_stability piece hmins hmaxs tbl ≤ 0) ∧
    (-1 ≤ evaluate_tonal_stability piece tmins tmaxs deg ∧
      evaluate_tonal_stability piece tmins tmaxs deg ≤ 0) := by
  constructor
  · rw [evaluate_harmonic_stability]
    exact banded_score_bounds piece.sonorities _ hne (fun s hs => by
      have hstab := harmonic_stability_bounds s.elements tbl
        (hvoices s hs) htbl
      exact band_contribution_bounds hstab (hhmin s.position_type)
        (hhmax s.position_type))
  · rw [evaluate_tonal_stability]
    exact banded_score_bounds piece.sonorities _ hne (fun s hs => by
      have hstab := tonal_stability_bounds s.elements deg
        (le_trans (by norm_num) (hvoices s hs)) hdeg
      exact band_contribution_bounds hstab (htmin s.position_type)
        (htmax s.position_type))

/-- C6 witness: the bound statement applied to `unisonPiece` with concrete
constant stability tables. -/
theorem c6_stability_scores_bounded_witness :
    (-1 ≤ evaluate_harmonic_stability unisonPiece
        (fun _ => 1/2) (fun _ => 3/4) (fun _ => 1/3) ∧
      evaluate_harmonic_stability unisonPiece
        (fun _ => 1/2) (fun _ => 3/4) (fun _ => 1/3) ≤ 0) ∧
    (-1 ≤ evaluate_tonal_stability unisonPiece
        (fun _ => 1/4) (fun _ => 1) (fun _ => 2/3) ∧
      evaluate_tonal_stability unisonPiece
        (fun _ => 1/4) (fun _ => 1) (fun _ => 2/3) ≤ 0) :=
  c6_stability_scores_bounded unisonPiece
    (fun _ => 1/2) (fun _ => 3/4) (fun _ => 1/3)
    (fun _ => 1/4) (fun _ => 1) (fun _ => 2/3)
    (by decide) (by decide)
    (fun _ => by norm_num) (fun _ => by norm_num) (fun _ => by norm_num)
    (fun _ => by norm_num) (fun _ => by norm_num) (fun _ => by norm_num)

/-- C9: for every piece, scoring coefficients, and scoring-function
parameters, `evaluate` returns the same score with `verbose = true` as
with `verbose = false`; the diagnostic log is a side channel with no
influence on the returned score. -/
theorem c9_verbose_does_not_change_score (piece : Piece)
    (scoring_coefs : List (ScoringFnName × ℚ)) (p : ScoringFnParams) :
    (evaluate piece scoring_coefs p true).1
      = (evaluate piece scoring_coefs p false).1 := by
  rw [evaluate, evaluate]
  exact evaluate_foldl_fst piece p scoring_coefs 0 [] [] true false

/-- C7: when the number of voices exceeds the number of available pitches
the combination enumeration is empty and `update_one_sonority` silently
returns the incoming result unchanged, having evaluated nothing — it does
NOT fail fast with a configuration error, contradicting the claim (the
spec itself flags this as a defect, §9). -/
theorem c7_empty_neighborhood_is_silent_noop (result : SearchResult)
    (sonority_position : ℤ) (fraction_to_try : ℚ)
    (scoring_coefs : List (ScoringFnName × ℚ)) (p : ScoringFnParams)
    (randoms : ℕ → ℚ)
    (h : result.piece.pitches.length < result.piece.melodic_lines.length) :
    update_one_sonority result sonority_position fraction_to_try
      scoring_coefs p randoms = some (result, []) := by
  rw [update_one_sonority, combinations_eq_nil _ _ h]
  rfl

/-- C7 witness: on the concrete `degeneratePiece` (two voices, one
available pitch) the optimizer's sonority update is a silent no-op. -/
theorem c7_empty_neighborhood_is_silent_noop_witness :
    (degeneratePiece.pitches.length
        < degeneratePiece.melodic_lines.length) ∧
    update_one_sonority (SearchResult.mk degeneratePiece (-1)) 0 (1/2)
      [(ScoringFnName.absence_of_voice_crossing, 1)] defaultScoringParams
      (fun _ => 0) = some (SearchResult.mk degeneratePiece (-1), []) :=
  ⟨by decide,
    c7_empty_neighborhood_is_silent_noop
      (SearchResult.mk degeneratePiece (-1)) 0 (1/2)
      [(ScoringFnName.absence_of_voice_crossing, 1)] defaultScoringParams
      (fun _ => 0) (by decide)⟩

/-- C8: `set_new_values_for_sonority` changes only the element at the
targeted sonority's per-line index in each melodic line (index -1
resolving to the last element, as in Python), leaves every other element
of every line untouched, and each replacement element keeps the start time
and duration of the element it replaces. -/
theorem c8_set_values_frame (piece : Piece) (sonority_position : ℤ)
    (new_values : List ScaleElement) (piece' : Piece) (sonority : Sonority)
    (hson : pyGet piece.sonorities sonority_position = some sonority)
    (hidx : sonority.indices.length = piece.melodic_lines.length)
    (hvals : new_values.length = piece.melodic_lines.length)
    (hset : set_new_values_for_sonority piece sonority_position new_values
      = some piece') :
    piece'.melodic_lines.length = piece.melodic_lines.length ∧
    ∀ i : ℕ, i < piece.melodic_lines.length →
      ∃ ml k old idx v,
        piece.melodic_lines[i]? = some ml ∧
        sonority.indices[i]? = some idx ∧
        new_values[i]? = some v ∧
        pyIdx ml.length idx = some k ∧ ml[k]? = some old ∧
        piece'.melodic_lines[i]?
          = some (ml.set k (replacement_element v old)) ∧
        (∀ j : ℕ, j ≠ k → (ml.set k (replacement_element v old))[j]?
          = ml[j]?) ∧
        (ml.set k (replacement_element v old))[k]?
          = some (replacement_element v old) ∧
        (replacement_element v old).start_time = old.start_time ∧
        (replacement_element v old).duration = old.duration := by
  rw [set_new_values_for_sonority] at hset
  rw [hson] at hset
  replace hset := Option.bind_eq_some.mp hset
  obtain ⟨son', hson', hset⟩ := hset
  obtain rfl := (Option.some.injEq _ _).mp hson'
  obtain ⟨lines', hlines', hset⟩ := Option.bind_eq_some.mp hset
  obtain ⟨sons', hsons', hset⟩ := Option.bind_eq_some.mp hset
  obtain rfl := (Option.some.injEq _ _).mp hset
  obtain ⟨hlen, hspec⟩ :=
    update_lines_spec piece.melodic_lines sonority.indices new_values
      lines' hlines'
  refine ⟨hlen, fun i hi => ?_⟩
  obtain ⟨idx, hidx'⟩ : ∃ idx, sonority.indices[i]? = some idx :=
    ⟨_, List.getElem?_eq_getElem
      (show i < sonority.indices.length by omega)⟩
  obtain ⟨v, hv⟩ : ∃ v, new_values[i]? = some v :=
    ⟨_, List.getElem?_eq_getElem (show i < new_values.length by omega)⟩
  obtain ⟨ml, k, old, hml, hk, hold, hml'⟩ :=
    (hspec i hi).2 idx v hidx' hv
  have hkl : k < ml.length := by
    by_contra hcon
    rw [List.getElem?_eq_none (by omega)] at hold
    exact absurd hold (by simp)
  refine ⟨ml, k, old, idx, v, hml, hidx', hv, hk, hold, hml', ?_, ?_, rfl,
    rfl⟩
  · intro j hj
    exact List.getElem?_set_ne (Ne.symm hj)
  · exact List.getElem?_set_self (by simpa using hkl)

/-- C8 witness: replacing sonority 0 of `unisonPiece` with scale elements
E4 and B4 yields exactly `c8UpdatedPiece`, and the frame statement holds
there. -/
theorem c8_set_values_frame_witness :
    (pyGet unisonPiece.sonorities 0
        = some (Sonority.mk
          [ PieceElement.mk "C4" 39 23 1 0 1,
            PieceElement.mk "G4" 46 27 5 0 2 ] [0, 0] "beginning")) ∧
    set_new_values_for_sonority unisonPiece 0
        [ ScaleElement.mk "E4" 43 25 3, ScaleElement.mk "B4" 50 29 7 ]
      = some c8UpdatedPiece ∧
    (c8UpdatedPiece.melodic_lines.length
        = unisonPiece.melodic_lines.length ∧
      ∀ i : ℕ, i < unisonPiece.melodic_lines.length →
        ∃ ml k old idx v,
          unisonPiece.melodic_lines[i]? = some ml ∧
          (Sonority.mk
            [ PieceElement.mk "C4" 39 23 1 0 1,
              PieceElement.mk "G4" 46 27 5 0 2 ] [0, 0]
            "beginning").indices[i]? = some idx ∧
          [ ScaleElement.mk "E4" 43 25 3,
            ScaleElement.mk "B4" 50 29 7 ][i]? = some v ∧
          pyIdx ml.length idx = some k ∧ ml[k]? = some old ∧
          c8UpdatedPiece.melodic_lines[i]?
            = some (ml.set k (replacement_element v old)) ∧
          (∀ j : ℕ, j ≠ k → (ml.set k (replacement_element v old))[j]?
            = ml[j]?) ∧
          (ml.set k (replacement_element v old))[k]?
            = some (replacement_element v old) ∧
          (replacement_element v old).start_time = old.start_time ∧
          (replacement_element v old).duration = old.duration) :=
  ⟨by decide, by decide,
    c8_set_values_frame unisonPiece 0
      [ ScaleElement.mk "E4" 43 25 3, ScaleElement.mk "B4" 50 29 7 ]
      c8UpdatedPiece
      (Sonority.mk
        [ PieceElement.mk "C4" 39 23 1 0 1,
          PieceElement.mk "G4" 46 27 5 0 2 ] [0, 0] "beginning")
      (by decide) (by decide) (by decide) (by decide)⟩

/-- C2 counterexample: a valid piece (two non-empty lines built from
positive durations, both lasting exactly two measures) on which
`find_sonorities` does not succeed: the second line's last note starts at
time 1, before the interior onset 3/2, so the interior loop reads
`line_start_times[2]` in a line of length 2 and raises `IndexError`. -/
theorem c2_counterexample_crash :
    ValidLines crashLinesB 2 ∧ find_sonorities crashLinesB [] = none := by
  constructor
  · refine ⟨by decide, ?_⟩
    intro l hl
    fin_cases hl <;> refine ⟨by decide, by decide, by decide⟩
  · decide

/-- C2 (amended): for every family of melodic lines forming a valid piece,
*if* `find_sonorities` succeeds then, for every interior onset time, the
recorded index for each line is the index of the last note in that line
whose start time is ≤ that onset, and the recorded indices are monotonic
across successive onsets, never regressing. -/
theorem c2_interior_indices_track_last_started
    (lines : List (List PieceElement)) (total : ℚ)
    (custom : List (ℚ × String)) (sons : List Sonority)
    (hv : ValidLines lines total)
    (hs : find_sonorities lines custom = some sons) :
    (∀ (k : ℕ) (t : ℚ),
      (((((lines.map fun l => l.map (·.start_time)).flatten.dedup).insertionSort
        (· ≤ ·)).drop 1).dropLast)[k]? = some t →
      ∀ (j : ℕ) (sl : List ℚ),
        (lines.map fun l => l.map (·.start_time))[j]? = some sl →
        ∃ son i, sons[k + 1]? = some son ∧
          son.indices[j]? = some (Int.ofNat i) ∧ LastLE sl t i) ∧
    (∀ k : ℕ,
      k < (((((lines.map fun l => l.map (·.start_time)).flatten.dedup).insertionSort
        (· ≤ ·)).drop 1).dropLast).length →
      ∀ j : ℕ, j < lines.length →
        sonIdx sons k j ≤ sonIdx sons (k + 1) j) := by
  obtain ⟨hlne, hlv⟩ := hv
  set starts := lines.map fun l => l.map (·.start_time) with hstarts
  set flat := starts.flatten with hflat
  set unique := (flat.dedup).insertionSort (· ≤ ·) with hunique
  have hperm : unique.Perm flat.dedup := List.perm_insertionSort _ _
  have hnodup : unique.Nodup := hperm.nodup_iff.mpr (List.nodup_dedup flat)
  have hsorted_le : unique.Sorted (· ≤ ·) := List.sorted_insertionSort _ _
  have hsorted : unique.Sorted (· < ·) := hsorted_le.lt_of_le hnodup
  have hmemu : ∀ x : ℚ, x ∈ unique ↔ x ∈ flat := fun x => by
    rw [hperm.mem_iff, List.mem_dedup]
  have hline_facts : ∀ sl ∈ starts, sl.Sorted (· < ·) ∧
      (∀ x ∈ sl, (0 : ℚ) ≤ x) ∧ sl[0]? = some 0 := by
    intro sl hsl
    obtain ⟨l, hl, rfl⟩ := List.mem_map.mp hsl
    obtain ⟨hlnil, hlc, -⟩ := hlv l hl
    obtain ⟨hso, hlb, hhead⟩ := consistentFrom_sorted l 0 hlc
    refine ⟨hso, hlb, ?_⟩
    rcases hhead with hhead | rfl
    · rw [← List.head?_eq_getElem?]
      exact hhead
    · exact absurd rfl hlnil
  have hflat_lb : ∀ x ∈ flat, (0 : ℚ) ≤ x := by
    intro x hx
    obtain ⟨sl, hsl, hxsl⟩ := List.mem_flatten.mp hx
    exact (hline_facts sl hsl).2.1 x hxsl
  have h0flat : (0 : ℚ) ∈ flat := by
    obtain ⟨l, ltail, rfl⟩ := List.exists_cons_of_ne_nil hlne
    have hsl : (l.map (·.start_time)) ∈ starts := by
      rw [hstarts]
      exact List.mem_map.mpr ⟨l, by simp, rfl⟩
    exact List.mem_flatten.mpr
      ⟨_, hsl, List.getElem?_mem (hline_facts _ hsl).2.2⟩
  obtain ⟨u₀, utail, hu⟩ :=
    List.exists_cons_of_ne_nil
      (show unique ≠ [] from fun hnil => by
        rw [← hmemu, hnil] at h0flat
        exact absurd h0flat (by simp))
  have hu₀ : u₀ = 0 := by
    have hin : (0 : ℚ) ∈ u₀ :: utail := by
      rw [← hu, hmemu]
      exact h0flat
    have hle : u₀ ≤ 0 := by
      rcases List.mem_cons.mp hin with heq | hin
      · exact heq.ge
      · rw [hu, List.sorted_cons] at hsorted_le
        exact hsorted_le.1 0 hin
    have hge : (0 : ℚ) ≤ u₀ :=
      hflat_lb u₀ ((hmemu u₀).mp (hu ▸ List.mem_cons_self u₀ utail))
    linarith
  have hchain : AdjacentChain (· ∈ flat) u₀ ((unique.drop 1).dropLast) := by
    have h1 : unique.drop 1 = utail := by rw [hu]; rfl
    rw [h1]
    apply adjacentChain_dropLast
    apply sorted_adjacentChain flat u₀ utail (hu ▸ hsorted)
    intro x hx
    exact Or.inl (hu ▸ (hmemu x).mpr hx)
  rw [find_sonorities] at hs
  obtain ⟨fe, -, hs⟩ := Option.bind_eq_some.mp hs
  obtain ⟨interior, hint, hs⟩ := Option.bind_eq_some.mp hs
  obtain ⟨le, -, hs⟩ := Option.bind_eq_some.mp hs
  obtain rfl := (Option.some.injEq _ _).mp hs
  have hintlen := interior_sonorities_length hint
  rw [← hstarts, ← hflat, ← hunique] at hintlen
  have hinit : ∀ (j idx : ℕ) (sl : List ℚ),
      (lines.map fun _ => (0 : ℕ))[j]? = some idx →
      starts[j]? = some sl → LastLE sl u₀ idx := by
    intro j idx sl hj hsl
    have hidx0 : idx = 0 := by
      rcases hz : (lines.map fun _ => (0 : ℕ))[j]? with - | z
      · rw [hz] at hj; exact absurd hj (by simp)
      · rw [hz] at hj
        obtain rfl := (Option.some.injEq _ _).mp hj
        have : z = 0 := by
          have hjl : j < lines.length := by
            by_contra hbig
            rw [List.getElem?_eq_none (by simpa using by omega)] at hz
            exact absurd hz (by simp)
          rw [List.getElem?_map] at hz
          rcases hl : lines[j]? with - | l
          · rw [hl] at hz; exact absurd hz (by simp)
          · rw [hl] at hz; simpa using hz.symm
        exact this
    subst hidx0
    obtain ⟨hso, -, hhead⟩ := hline_facts sl (List.getElem?_mem hsl)
    subst hu₀
    refine ⟨⟨0, hhead, le_refl _⟩, fun b hb => ?_⟩
    have h0lt : sl[0]? = some 0 := hhead
    have hb1 : 1 < sl.length := by
      by_contra hbig
      rw [List.getElem?_eq_none (by omega)] at hb
      exact absurd hb (by simp)
    have := List.pairwise_iff_get.mp hso ⟨0, by omega⟩ ⟨1, hb1⟩ (by simp)
    rw [List.getElem?_eq_getElem (by omega : 0 < sl.length)] at h0lt
    rw [List.getElem?_eq_getElem hb1] at hb
    obtain h0' : (0 : ℚ) = sl.get ⟨0, by omega⟩ := by simpa using h0lt.symm
    obtain hb' : b = sl.get ⟨1, hb1⟩ := by simpa using hb.symm
    linarith [this]
  have hmain := interior_loop_lastLE lines starts custom (· ∈ flat)
    (fun sl hsl x hx => List.mem_flatten.mpr ⟨sl, hsl, hx⟩)
    (fun sl hsl => (hline_facts sl hsl).1)
    ((unique.drop 1).dropLast) u₀ (lines.map fun _ => (0 : ℕ)) interior
    hchain (by simp [hstarts]) hinit hint
  constructor
  · intro k t hk j sl hsl
    obtain ⟨son, i, hson, hidx, hlast⟩ := hmain k t hk j sl hsl
    refine ⟨son, i, ?_, hidx, hlast⟩
    have hklen : k < interior.length := by
      rw [hintlen]
      by_contra hbig
      rw [List.getElem?_eq_none (by omega)] at hk
      exact absurd hk (by simp)
    rw [List.getElem?_cons_succ, List.getElem?_append_left hklen]
    exact hson
  · intro k hk j hj
    have htsorted : (((unique.drop 1).dropLast) : List ℚ).Sorted (· < ·) :=
      hsorted.sublist ((List.dropLast_sublist _).trans
        (List.drop_sublist 1 unique))
    obtain ⟨sl, hsl⟩ : ∃ sl, starts[j]? = some sl :=
      ⟨_, List.getElem?_eq_getElem (by simpa [hstarts] using hj)⟩
    have hval : ∀ (m i : ℕ) (son : Sonority), interior[m]? = some son →
        son.indices[j]? = some (Int.ofNat i) →
        sonIdx (Sonority.mk fe ((lines.map fun _ => (0 : ℕ)).map Int.ofNat)
            "beginning"
          :: (interior ++ [Sonority.mk le (lines.map fun _ => (-1 : ℤ))
            "ending"])) (m + 1) j = Int.ofNat i := by
      intro m i son hm hji
      have hmlen : m < interior.length := by
        by_contra hbig
        rw [List.getElem?_eq_none (by omega)] at hm
        exact absurd hm (by simp)
      rw [sonIdx]
      simp only [List.getD_eq_getElem?_getD, List.getElem?_cons_succ,
        List.getElem?_append_left hmlen, hm, Option.getD_some, hji]
    match k with
    | 0 =>
        obtain ⟨t, ht⟩ : ∃ t, ((unique.drop 1).dropLast)[0]? = some t :=
          ⟨_, List.getElem?_eq_getElem hk⟩
        obtain ⟨son, i, hson, hidx, -⟩ := hmain 0 t ht j sl hsl
        rw [hval 0 i son hson hidx]
        have hs0 : sonIdx (Sonority.mk fe
            ((lines.map fun _ => (0 : ℕ)).map Int.ofNat) "beginning"
          :: (interior ++ [Sonority.mk le (lines.map fun _ => (-1 : ℤ))
            "ending"])) 0 j = 0 := by
          rw [sonIdx]
          simp only [List.getD_eq_getElem?_getD, List.getElem?_cons_zero,
            Option.getD_some, List.map_map]
          rcases hl : (lines.map (Int.ofNat ∘ fun _ => (0 : ℕ)))[j]? with - | z
          · rfl
          · have := List.getElem?_mem hl
            simp only [List.mem_map, Function.comp] at this
            obtain ⟨-, -, rfl⟩ := this
            simp
        rw [hs0]
        exact Int.ofNat_nonneg i
    | Nat.succ k' =>
        have hk' : k' < ((unique.drop 1).dropLast).length := by omega
        obtain ⟨t, ht⟩ : ∃ t, ((unique.drop 1).dropLast)[k']? = some t :=
          ⟨_, List.getElem?_eq_getElem hk'⟩
        obtain ⟨t', ht'⟩ : ∃ t',
            ((unique.drop 1).dropLast)[k' + 1]? = some t' :=
          ⟨_, List.getElem?_eq_getElem hk⟩
        obtain ⟨son, i, hson, hidx, hlast⟩ := hmain k' t ht j sl hsl
        obtain ⟨son', i', hson', hidx', hlast'⟩ :=
          hmain (k' + 1) t' ht' j sl hsl
        rw [hval k' i son hson hidx, hval (k' + 1) i' son' hson' hidx']
        have htt : t ≤ t' := by
          rw [List.getElem?_eq_getElem hk'] at ht
          rw [List.getElem?_eq_getElem hk] at ht'
          obtain rfl : t = ((unique.drop 1).dropLast).get ⟨k', hk'⟩ := by
            simpa using ht.symm
          obtain rfl : t' = ((unique.drop 1).dropLast).get ⟨k' + 1, hk⟩ := by
            simpa using ht'.symm
          exact (List.pairwise_iff_get.mp htsorted _ _ (by simp)).le
        exact Int.ofNat_le.mpr
          (lastLE_mono (hline_facts sl (List.getElem?_mem hsl)).1
            hlast hlast' htt)

/-- C2 witness: the amended statement applied to the concrete scenario
piece, whose validity and sonorities are computed outright. -/
theorem c2_interior_indices_track_last_started_witness :
    ValidLines [scenarioLine1, scenarioLine2] 2 ∧
    find_sonorities [scenarioLine1, scenarioLine2] []
      = some scenarioSonorities ∧
    ((∀ (k : ℕ) (t : ℚ),
      ((((([scenarioLine1, scenarioLine2].map
          fun l => l.map (·.start_time)).flatten.dedup).insertionSort
        (· ≤ ·)).drop 1).dropLast)[k]? = some t →
      ∀ (j : ℕ) (sl : List ℚ),
        ([scenarioLine1, scenarioLine2].map
          fun l => l.map (·.start_time))[j]? = some sl →
        ∃ son i, scenarioSonorities[k + 1]? = some son ∧
          son.indices[j]? = some (Int.ofNat i) ∧ LastLE sl t i) ∧
    (∀ k : ℕ,
      k < ((((([scenarioLine1, scenarioLine2].map
          fun l => l.map (·.start_time)).flatten.dedup).insertionSort
        (· ≤ ·)).drop 1).dropLast).length →
      ∀ j : ℕ, j < ([scenarioLine1, scenarioLine2] :
          List (List PieceElement)).length →
        sonIdx scenarioSonorities k j
          ≤ sonIdx scenarioSonorities (k + 1) j)) :=
  ⟨by refine ⟨by decide, ?_⟩
      intro l hl
      fin_cases hl <;> exact ⟨by decide, by decide, by decide⟩,
    by decide,
    c2_interior_indices_track_last_started [scenarioLine1, scenarioLine2]
      2 [] scenarioSonorities
      (by refine ⟨by decide, ?_⟩
          intro l hl
          fin_cases hl <;> exact ⟨by decide, by decide, by decide⟩)
      (by decide)⟩

/-- C4 counterexample: on a concrete one-pass run, the pass brings no
improvement, a perturbation is applied after the final pass, and the
perturbed piece is evaluated to a score (0) strictly above the returned
piece's score (-1) — so the returned piece is *not* the best-scoring piece
encountered during the whole run. -/
theorem c4_counterexample_final_perturbation :
    (run_variable_neighborhood_search crossedPiece c4Coefs
        defaultScoringParams (1/2) [c4Oracle]).map
      (fun r => ((evaluate r.1 c4Coefs defaultScoringParams false).1,
        r.2.trace.any (fun s =>
          decide ((evaluate r.1 c4Coefs defaultScoringParams false).1 < s))))
      = some (-1, true) := by
  decide

/-- C4 (amended): across every pass the best score never decreases and the
best result is replaced only when the end-of-pass current score strictly
exceeds it (so perturbation never lowers it); the piece returned after the
fixed number of passes is the tracked best piece, its score is at least
the initial score and is exactly its own evaluation, and it bounds every
score evaluated during the run — except that when the final pass ends
with a perturbation, the perturbed piece's score is evaluated but never
compared against the best and may exceed it. -/
theorem c4_best_score_tracking (piece : Piece)
    (scoring_coefs : List (ScoringFnName × ℚ)) (p : ScoringFnParams)
    (fraction_to_try : ℚ) (pass_oracles : List PassOracle)
    (final : Piece) (st : VnsState)
    (hrun : run_variable_neighborhood_search piece scoring_coefs p
      fraction_to_try pass_oracles = some (final, st)) :
    (∀ (n : ℕ) (oracle : PassOracle) (s s' : VnsState),
      vns_pass n fraction_to_try scoring_coefs p oracle s = some s' →
      s.best.score ≤ s'.best.score ∧
        (s'.best = s.best ∨ s.best.score < s'.best.score)) ∧
    final = st.best.piece ∧
    (evaluate piece scoring_coefs p false).1 ≤ st.best.score ∧
    st.best.score = (evaluate st.best.piece scoring_coefs p false).1 ∧
    (∀ s ∈ st.trace, s ≤ max st.best.score st.current.score) ∧
    (st.finalPerturbed = false → ∀ s ∈ st.trace, s ≤ st.best.score) := by
  refine ⟨fun n oracle s s' hp => ?_, ?_⟩
  · obtain ⟨a, b, -⟩ :=
      vns_pass_spec n fraction_to_try scoring_coefs p oracle s s' hp
    exact ⟨a, b⟩
  rw [run_variable_neighborhood_search] at hrun
  obtain ⟨stf, hfold, hrun⟩ := Option.bind_eq_some.mp hrun
  simp only [Option.some.injEq, Prod.mk.injEq] at hrun
  obtain ⟨hfinal, rfl⟩ := hrun
  obtain ⟨hmono, hinv⟩ := vns_fold_spec piece.sonorities.length
    fraction_to_try scoring_coefs p pass_oracles _ _ hfold
  have hinv0 : VnsInvariant scoring_coefs p
      (VnsState.mk
        (SearchResult.mk piece (evaluate piece scoring_coefs p false).1)
        (SearchResult.mk piece (evaluate piece scoring_coefs p false).1)
        (SearchResult.mk piece (evaluate piece scoring_coefs p false).1)
        [(evaluate piece scoring_coefs p false).1] false) := by
    refine ⟨fun s hs => ?_, fun _ s hs => ?_, rfl, rfl⟩ <;>
      · simp only [List.mem_singleton] at hs
        subst hs
        simp
  obtain ⟨j1, j2, j3, -⟩ := hinv hinv0
  exact ⟨hfinal.symm, hmono, j3, j1, j2⟩

/-- C4 witness: the amended statement evaluated on the concrete one-pass
run of the search on `crossedPiece`. -/
theorem c4_best_score_tracking_witness :
    (run_variable_neighborhood_search crossedPiece c4Coefs
        defaultScoringParams (1/2) [c4Oracle]
      = some (crossedPiece, c4FinalState)) ∧
    ((∀ (n : ℕ) (oracle : PassOracle) (s s' : VnsState),
      vns_pass n (1/2) c4Coefs defaultScoringParams oracle s = some s' →
      s.best.score ≤ s'.best.score ∧
        (s'.best = s.best ∨ s.best.score < s'.best.score)) ∧
    crossedPiece = c4FinalState.best.piece ∧
    (evaluate crossedPiece c4Coefs defaultScoringParams false).1
      ≤ c4FinalState.best.score ∧
    c4FinalState.best.score
      = (evaluate c4FinalState.best.piece c4Coefs defaultScoringParams
        false).1 ∧
    (∀ s ∈ c4FinalState.trace,
      s ≤ max c4FinalState.best.score c4FinalState.current.score) ∧
    (c4FinalState.finalPerturbed = false →
      ∀ s ∈ c4FinalState.trace, s ≤ c4FinalState.best.score)) :=
  ⟨by decide,
    c4_best_score_tracking crossedPiece c4Coefs defaultScoringParams (1/2)
      [c4Oracle] crossedPiece c4FinalState (by decide)⟩

end Geniartor
